import Mathlib

/-!
Verification development for an RTMP relay server (Go source).

Shallow embedding of the session-handling engine: byte-stream
primitives, the chunk-stream reader, the AMF0 codec, the simple RTMP
handshake, the circuit breaker, the retry helpers, and the upstream
pool.  Bytes are modelled as natural numbers (each < 256 where the
source produces them), byte streams as lists consumed from the front,
and fallible reads as Option/Except values.  Machine integers carry
explicit reductions modulo 2^32 exactly where the Go code relies on
uint32 wrap-around.
-/

set_option maxRecDepth 8192

namespace RTMPRelay

/-! ### Byte-stream primitives

The Go code reads from an io.Reader with io.ReadFull.  We model the
stream as a list of bytes; a full read of n bytes succeeds exactly when
the list holds at least n bytes. -/

/-- Read exactly n bytes (io.ReadFull); none models a short read. -/
def readN (n : Nat) (input : List Nat) : Option (List Nat × List Nat) :=
  if n ≤ input.length then some (input.take n, input.drop n) else none

/-- Read a single byte. -/
def readByteL (input : List Nat) : Option (Nat × List Nat) :=
  match input with
  | [] => none
  | b :: rest => some (b, rest)

/-- Big-endian value of a byte list (binary.BigEndian / bigUint24). -/
def beVal (bs : List Nat) : Nat :=
  bs.foldl (fun a b => a * 256 + b) 0

/-- Little-endian 32-bit value of a 4-byte list (binary.LittleEndian.Uint32). -/
def leVal32 (bs : List Nat) : Nat :=
  match bs with
  | [b0, b1, b2, b3] => b0 + b1 * 256 + b2 * 65536 + b3 * 16777216
  | _ => 0

/-- Big-endian 16-bit serialization. -/
def be16 (v : Nat) : List Nat := [v / 256 % 256, v % 256]

/-- Big-endian 24-bit serialization. -/
def be24 (v : Nat) : List Nat := [v / 65536 % 256, v / 256 % 256, v % 256]

/-- Big-endian 32-bit serialization. -/
def be32 (v : Nat) : List Nat :=
  [v / 16777216 % 256, v / 65536 % 256, v / 256 % 256, v % 256]

/-- Little-endian 32-bit serialization. -/
def le32 (v : Nat) : List Nat :=
  [v % 256, v / 256 % 256, v / 65536 % 256, v / 16777216 % 256]

/-- Big-endian 64-bit serialization (used for AMF0 numbers). -/
def be64 (v : Nat) : List Nat :=
  [v / 2 ^ 56 % 256, v / 2 ^ 48 % 256, v / 2 ^ 40 % 256, v / 2 ^ 32 % 256,
   v / 16777216 % 256, v / 65536 % 256, v / 256 % 256, v % 256]

/-! ### Circuit breaker (internal/circuit, Breaker)

The Go Breaker guards a function call with a three-state machine.  Time
is abstracted to a natural-number clock; the guarded function's outcome
is a Bool (true = nil error).  The snapshot/recheck dance of the Go
code is the identity under sequential execution (no concurrent
transition can interleave), so call composes phase 1 directly with the
record phase. -/

inductive BState where
  | closed
  | opened
  | halfOpen
deriving DecidableEq, Repr

structure Breaker where
  state : BState
  failures : Nat
  successCount : Nat
  lastFailTime : Nat
  maxFailures : Nat
  resetTimeout : Nat
  successThresh : Nat
deriving DecidableEq, Repr

/-- circuit.New: a non-positive success threshold defaults to 1. -/
def Breaker.new (maxFailures : Nat) (resetTimeout : Nat) (successThresh : Int) : Breaker :=
  { state := .closed
    failures := 0
    successCount := 0
    lastFailTime := 0
    maxFailures := maxFailures
    resetTimeout := resetTimeout
    successThresh := if successThresh ≤ 0 then 1 else successThresh.toNat }

/-- Outcome of Breaker.Call: rejected = short-circuit with the
circuit-breaker-open error, ran ok = the guarded function ran and
returned ok. -/
inductive CallResult where
  | rejected
  | ran (ok : Bool)
deriving DecidableEq, Repr

/-- Phase 1 of Breaker.Call: under the lock, an Open breaker either
moves to HalfOpen (reset_timeout elapsed since the last failure,
counters reset) or rejects the call. -/
def Breaker.phase1 (b : Breaker) (now : Nat) : Breaker × Bool :=
  match b.state with
  | .opened =>
    if b.resetTimeout < now - b.lastFailTime then
      ({ b with state := .halfOpen, successCount := 0, failures := 0 }, true)
    else
      (b, false)
  | _ => (b, true)

/-- Breaker.recordFailure. -/
def Breaker.recordFailure (b : Breaker) (now : Nat) : Breaker :=
  let b1 := { b with failures := b.failures + 1, lastFailTime := now }
  match b1.state with
  | .halfOpen => { b1 with state := .opened }
  | _ =>
    if b1.maxFailures ≤ b1.failures then { b1 with state := .opened } else b1

/-- Breaker.recordSuccess. -/
def Breaker.recordSuccess (b : Breaker) : Breaker :=
  match b.state with
  | .halfOpen =>
    if b.successThresh ≤ b.successCount + 1 then
      { b with state := .closed, failures := 0, successCount := 0 }
    else
      { b with successCount := b.successCount + 1 }
  | _ => { b with failures := 0 }

/-- Breaker.Call at abstract time now with guarded-function outcome ok. -/
def Breaker.call (b : Breaker) (now : Nat) (ok : Bool) : Breaker × CallResult :=
  let p := b.phase1 now
  if p.2 then
    if ok then (p.1.recordSuccess, .ran true)
    else (p.1.recordFailure now, .ran false)
  else
    (p.1, .rejected)

/-! ### Retry (internal/retry, Do and DoWithJitter)

Durations are modelled in nanoseconds (Int, like time.Duration); the
multiplier is a rational standing for the Go float64.  Only attempt
counting is relevant to the claims, so the model records how many times
the guarded function runs; fn maps the attempt index to its outcome
(true = nil error).  Sleeping and jitter only affect elapsed time, not
the attempt sequence, so they are dropped; the jitterFraction clamp of
DoWithJitter touches only the sleep and is noted here for completeness. -/

structure RetryConfig where
  maxAttempts : Int
  initialDelay : Int
  maxDelay : Int
  multiplier : Rat
deriving DecidableEq, Repr

/-- The defaulting performed at the top of retry.Do (absent from
DoWithJitter): non-positive fields are replaced by 3 attempts, 1 s,
30 s, multiplier 2. -/
def normalizeDo (cfg : RetryConfig) : RetryConfig :=
  { maxAttempts := if cfg.maxAttempts ≤ 0 then 3 else cfg.maxAttempts
    initialDelay := if cfg.initialDelay ≤ 0 then 1000000000 else cfg.initialDelay
    maxDelay := if cfg.maxDelay ≤ 0 then 30000000000 else cfg.maxDelay
    multiplier := if cfg.multiplier ≤ 0 then 2 else cfg.multiplier }

/-- The attempt loop shared by Do and DoWithJitter: run fn up to the
given number of attempts, returning overall success and the number of
invocations performed. -/
def retryLoop (fn : Nat → Bool) : Nat → Nat → Bool × Nat
  | 0, done => (false, done)
  | n + 1, done =>
    if fn done then (true, done + 1) else retryLoop fn n (done + 1)

/-- retry.Do: normalizes the config, then loops. -/
def doRun (cfg : RetryConfig) (fn : Nat → Bool) : Bool × Nat :=
  retryLoop fn (normalizeDo cfg).maxAttempts.toNat 0

/-- retry.DoWithJitter: loops on the raw config (no defaulting of
MaxAttempts or the delays; only jitterFraction is clamped, which does
not affect the attempt sequence). -/
def doWithJitterRun (cfg : RetryConfig) (fn : Nat → Bool) : Bool × Nat :=
  retryLoop fn cfg.maxAttempts.toNat 0

/-! ### Upstream pool (internal/relay/upstream_pool.go)

Selection state for the round-robin strategy (the default branch of
Pick).  The random strategy differs only in drawing the initial
position from the RNG and is outside this model. -/

structure EndpointSt where
  url : String
  weight : Nat
  healthy : Bool
deriving DecidableEq, Repr

structure Pool where
  endpoints : List EndpointSt
  rrIndex : Nat
deriving DecidableEq, Repr

inductive PickErr where
  | noUpstreams
  | invalidWeights
  | noneSelected
deriving DecidableEq, Repr

/-- healthyEndpointsLocked. -/
def healthyEndpoints (l : List EndpointSt) : List EndpointSt :=
  l.filter (fun e => e.healthy)

/-- Sum of candidate weights. -/
def totalWeight (l : List EndpointSt) : Nat :=
  (l.map (fun e => e.weight)).sum

/-- Candidate list used by Pick: healthy endpoints, or the full list
when none are healthy. -/
def candidatesOf (p : Pool) : List EndpointSt :=
  let h := healthyEndpoints p.endpoints
  if h = [] then p.endpoints else h

/-- The walk of pickRoundRobinLocked: subtract weights until the
position falls within one endpoint. -/
def walkWeights : Nat → List EndpointSt → Option String
  | _, [] => none
  | pos, e :: rest =>
    if pos < e.weight then some e.url else walkWeights (pos - e.weight) rest

/-- UpstreamPool.Pick for the round-robin strategy, returning the
selected URL and the advanced pool state. -/
def Pool.pick (p : Pool) : Except PickErr (String × Pool) :=
  if p.endpoints = [] then .error .noUpstreams
  else
    let candidates := candidatesOf p
    let tw := totalWeight candidates
    if tw = 0 then .error .invalidWeights
    else
      let pos := p.rrIndex % tw
      let p2 : Pool := { p with rrIndex := (p.rrIndex + 1) % tw }
      match walkWeights pos candidates with
      | some url => .ok (url, p2)
      | none => .error .noneSelected

/-- Repeated picks, collecting the URLs in order. -/
def Pool.pickSeq : Nat → Pool → Except PickErr (List String × Pool)
  | 0, p => .ok ([], p)
  | n + 1, p =>
    match p.pick with
    | .error e => .error e
    | .ok (url, p2) =>
      match Pool.pickSeq n p2 with
      | .error e => .error e
      | .ok (urls, p3) => .ok (url :: urls, p3)

/-! ### AMF0 codec (internal/rtmp amf decode / amf_encode.go)

Values of the supported subset.  Numbers are carried as their IEEE-754
bit pattern (math.Float64bits / Float64frombits are bit-exact inverses,
so the codec never inspects the float beyond its 8 bytes).  A Go
map[string]interface{} value is represented canonically as an
association list sorted strictly by key in byte-lexicographic order:
this is exactly the order the encoder's sort.Strings iteration
produces, so encoding walks the list in place. -/

inductive AMFValue where
  | num (bits : Nat)
  | boolV (b : Bool)
  | str (s : List Nat)
  | nullV
  | obj (fields : List (List Nat × AMFValue))

/-- Decoder errors, one per dedicated Go error value (eof = io.EOF,
shortRead = io.ErrUnexpectedEOF, fuelOut = artifact of the fueled
embedding, unreachable with adequate fuel). -/
inductive DErr where
  | eof
  | shortRead
  | endObject
  | valueLimit
  | stringTooLong
  | keyLimit
  | invalidMarker (m : Nat)
  | fuelOut
deriving DecidableEq, Repr

/-- io.ReadFull semantics: io.EOF when nothing could be read,
io.ErrUnexpectedEOF on a partial read. -/
def readFullE (n : Nat) (input : List Nat) : Except DErr (List Nat × List Nat) :=
  if n ≤ input.length then .ok (input.take n, input.drop n)
  else if input.isEmpty then .error .eof
  else .error .shortRead

/-- decodeString: u16 big-endian length, then that many bytes.  The
length > 65535 check of the source is kept although a u16 can never
exceed it. -/
def decodeStringM (input : List Nat) : Except DErr (List Nat × List Nat) :=
  match readFullE 2 input with
  | .error e => .error e
  | .ok (lenB, r1) =>
    let len := beVal lenB
    if len = 0 then .ok ([], r1)
    else if 65535 < len then .error .stringTooLong
    else
      match readFullE len r1 with
      | .error e => .error e
      | .ok (s, r2) => .ok (s, r2)

/-- Go map insert (obj[key] = val): overwrite an existing key, append a
fresh one. -/
def mapInsert (fields : List (List Nat × AMFValue)) (k : List Nat) (v : AMFValue) :
    List (List Nat × AMFValue) :=
  match fields with
  | [] => [(k, v)]
  | (k0, v0) :: rest =>
    if k0 = k then (k0, v) :: rest else (k0, v0) :: mapInsert rest k v

mutual

/-- DecodeAMF0Value after its marker byte has been read.  Fueled: the Go
recursion terminates because every nesting level consumes input, and
every recursive call here follows at least one consumed byte, so any
fuel above the input length is adequate. -/
def decodeWithMarker : Nat → Nat → List Nat → Except DErr (AMFValue × List Nat)
  | 0, _, _ => .error .fuelOut
  | fuel + 1, m, input =>
    if m = 0 then
      match readFullE 8 input with
      | .error e => .error e
      | .ok (b, rest) => .ok (.num (beVal b), rest)
    else if m = 1 then
      match readFullE 1 input with
      | .error e => .error e
      | .ok (b, rest) => .ok (.boolV (b.headD 0 ≠ 0), rest)
    else if m = 2 then
      match decodeStringM input with
      | .error e => .error e
      | .ok (s, rest) => .ok (.str s, rest)
    else if m = 3 then
      decodeObjFields fuel input []
    else if m = 5 then .ok (.nullV, input)
    else if m = 8 then
      match readFullE 4 input with
      | .error e => .error e
      | .ok (_, rest) => decodeObjFields fuel rest []
    else if m = 9 then .error .endObject
    else .error (.invalidMarker m)

/-- decodeObject's loop: at most 500 keys, (key, value) pairs until a
value position holds the object-end marker 0x09. -/
def decodeObjFields : Nat → List Nat → List (List Nat × AMFValue) →
    Except DErr (AMFValue × List Nat)
  | 0, _, _ => .error .fuelOut
  | fuel + 1, input, acc =>
    if 500 ≤ acc.length then .error .keyLimit
    else
      match decodeStringM input with
      | .error e => .error e
      | .ok (k, r1) =>
        match readByteL r1 with
        | none => .error .eof
        | some (m, r2) =>
          if m = 9 then .ok (.obj acc, r2)
          else
            match decodeWithMarker fuel m r2 with
            | .error e => .error e
            | .ok (v, r3) => decodeObjFields fuel r3 (mapInsert acc k v)

end

/-- DecodeAMF0Value: read the marker byte, then decode. -/
def decodeValueF (fuel : Nat) (input : List Nat) : Except DErr (AMFValue × List Nat) :=
  match readByteL input with
  | none => .error .eof
  | some (m, rest) => decodeWithMarker fuel m rest

/-- DecodeAMF0's loop: collect top-level values (at most 1000) until
io.EOF. -/
def decodeLoop : Nat → List Nat → List AMFValue → Except DErr (List AMFValue)
  | 0, _, _ => .error .fuelOut
  | fuel + 1, input, acc =>
    if 1000 ≤ acc.length then .error .valueLimit
    else
      match decodeValueF (input.length + 1) input with
      | .error .eof => .ok acc
      | .error e => .error e
      | .ok (v, rest) => decodeLoop fuel rest (acc ++ [v])

/-- DecodeAMF0. -/
def decodeAMF0 (input : List Nat) : Except DErr (List AMFValue) :=
  decodeLoop (input.length + 1) input []

/-- decode of a single value with the canonical adequate fuel
(shorthand for the decode side of the round-trip). -/
def decodeOne (input : List Nat) : Except DErr (AMFValue × List Nat) :=
  decodeValueF (input.length + 1) input

mutual

/-- encodeValue (amf_encode.go).  String and key lengths pass through
uint16, which be16 reproduces (truncation modulo 65536 included).  For
an object the canonical sorted field list is walked in place: this is
the iteration order sort.Strings produces from the Go map. -/
def encodeValue : AMFValue → List Nat
  | .num bits => 0 :: be64 bits
  | .boolV b => [1, if b then 1 else 0]
  | .str s => 2 :: (be16 s.length ++ s)
  | .nullV => [5]
  | .obj fields => 3 :: (encodeFields fields ++ [0, 0, 9])

/-- encodeObject's key/value loop followed by the 00 00 09 end marker
(marker appended by the caller above). -/
def encodeFields : List (List Nat × AMFValue) → List Nat
  | [] => []
  | (k, v) :: rest => (be16 k.length ++ k) ++ encodeValue v ++ encodeFields rest

end

/-- Byte-lexicographic strict order on keys (Go string <). -/
def lexLt : List Nat → List Nat → Bool
  | [], [] => false
  | [], _ :: _ => true
  | _ :: _, [] => false
  | a :: as, b :: bs => if a < b then true else if b < a then false else lexLt as bs

/-- Keys strictly ascending (canonical Go-map representation). -/
def keysSorted : List (List Nat × AMFValue) → Prop
  | [] => True
  | [_] => True
  | a :: b :: rest => lexLt a.1 b.1 = true ∧ keysSorted (b :: rest)

mutual

/-- The supported AMF0 subset together with the codec's hard limits:
strings and keys of at most 65535 bytes (the u16 length field),
objects of at most 499 keys (the 500th insertion trips the decoder's
key limit), numbers an 8-byte pattern, canonical sorted objects. -/
def SupportedV : AMFValue → Prop
  | .num bits => bits < 2 ^ 64
  | .boolV _ => True
  | .str s => s.length ≤ 65535
  | .nullV => True
  | .obj fields => keysSorted fields ∧ fields.length ≤ 499 ∧ SupportedFields fields

def SupportedFields : List (List Nat × AMFValue) → Prop
  | [] => True
  | (k, v) :: rest => k.length ≤ 65535 ∧ SupportedV v ∧ SupportedFields rest

end

mutual

/-- The subset exactly as the round-trip claim words it: numbers,
booleans, strings, null, and string-keyed objects of such values, with
no size limits (objects canonical as above). -/
def ClaimSubsetV : AMFValue → Prop
  | .num bits => bits < 2 ^ 64
  | .boolV _ => True
  | .str _ => True
  | .nullV => True
  | .obj fields => keysSorted fields ∧ ClaimSubsetFields fields

def ClaimSubsetFields : List (List Nat × AMFValue) → Prop
  | [] => True
  | (_, v) :: rest => ClaimSubsetV v ∧ ClaimSubsetFields rest

end


/-! ### RTMP chunk stream reader (internal/rtmp chunkstream)

Faithful translation of ChunkStream.readChunk / ReadMessage.  A Message
under assembly is represented by the bytes filled so far (the Go code
preallocates the full buffer and tracks bytesRead; here payload is the
filled prefix and bytesRead = payload.length).  Go uint32 additions of
timestamp + delta wrap modulo 2^32. -/

structure ChunkHeader where
  fmt : Nat
  csid : Nat
  timestamp : Nat
  length : Nat
  typeId : Nat
  streamId : Nat
  timeDelta : Nat
deriving DecidableEq, Repr

/-- The zero value a fresh StreamState carries. -/
def ChunkHeader.zero : ChunkHeader :=
  { fmt := 0, csid := 0, timestamp := 0, length := 0, typeId := 0
    streamId := 0, timeDelta := 0 }

structure RMessage where
  header : ChunkHeader
  payload : List Nat
deriving DecidableEq, Repr

structure StreamState where
  lastHeader : ChunkHeader
  assembling : Option RMessage
deriving DecidableEq, Repr

def StreamState.fresh : StreamState :=
  { lastHeader := ChunkHeader.zero, assembling := none }

structure ChunkStream where
  rxChunkSize : Nat
  streams : List (Nat × StreamState)
deriving DecidableEq, Repr

/-- NewChunkStream: default chunk size 128, empty per-CSID map. -/
def newChunkStream : ChunkStream := { rxChunkSize := 128, streams := [] }

/-- Per-CSID map lookup (c.streams[csID]). -/
def lookupCS : List (Nat × StreamState) → Nat → Option StreamState
  | [], _ => none
  | (c, s) :: rest, k => if c = k then some s else lookupCS rest k

/-- Per-CSID map store. -/
def updateCS : List (Nat × StreamState) → Nat → StreamState → List (Nat × StreamState)
  | [], k, v => [(k, v)]
  | (c, s) :: rest, k, v =>
    if c = k then (c, v) :: rest else (c, s) :: updateCS rest k v

/-- Basic-header CSID extension: low-6-bit values 0 and 1 select a one-
or two-byte extension. -/
def readBasicCs (cs0 : Nat) (r : List Nat) : Option (Nat × List Nat) :=
  if cs0 = 0 then
    match r with
    | b :: r1 => some (64 + b, r1)
    | [] => none
  else if cs0 = 1 then
    match r with
    | b0 :: b1 :: r1 => some (64 + b0 + 256 * b1, r1)
    | _ => none
  else some (cs0, r)

/-- fmt-0 message header: ts24, len24, type id, 32-bit LE stream id. -/
def readFmt0Hdr : List Nat → Option (Nat × Nat × Nat × Nat × List Nat)
  | t2 :: t1 :: t0 :: l2 :: l1 :: l0 :: ty :: s0 :: s1 :: s2 :: s3 :: r =>
    some (t2 * 65536 + t1 * 256 + t0, l2 * 65536 + l1 * 256 + l0, ty,
      s0 + 256 * s1 + 65536 * s2 + 16777216 * s3, r)
  | _ => none

/-- fmt-1 message header: delta24, len24, type id. -/
def readFmt1Hdr : List Nat → Option (Nat × Nat × Nat × List Nat)
  | t2 :: t1 :: t0 :: l2 :: l1 :: l0 :: ty :: r =>
    some (t2 * 65536 + t1 * 256 + t0, l2 * 65536 + l1 * 256 + l0, ty, r)
  | _ => none

/-- fmt-2 message header: delta24. -/
def readFmt2Hdr : List Nat → Option (Nat × List Nat)
  | t2 :: t1 :: t0 :: r => some (t2 * 65536 + t1 * 256 + t0, r)
  | _ => none

/-- 4-byte big-endian extended timestamp. -/
def readExt32 : List Nat → Option (Nat × List Nat)
  | b3 :: b2 :: b1 :: b0 :: r =>
    some (b3 * 16777216 + b2 * 65536 + b1 * 256 + b0, r)
  | _ => none

/-- Parse the per-fmt message header, yielding the updated working
header (readChunk step 2).  For fmt 3 no bytes are consumed: a partial
message fixes the header, otherwise a new message inherits the previous
header and adds the previous delta. -/
def parseMsgHeader (fmtId : Nat) (st : StreamState) (base : ChunkHeader)
    (r : List Nat) : Option (ChunkHeader × List Nat) :=
  if fmtId = 0 then
    match readFmt0Hdr r with
    | none => none
    | some (ts, len, ty, sid, r1) =>
      some ({ base with timestamp := ts, length := len, typeId := ty,
                        streamId := sid, timeDelta := 0 }, r1)
  else if fmtId = 1 then
    match readFmt1Hdr r with
    | none => none
    | some (d, len, ty, r1) =>
      some ({ base with timeDelta := d, length := len, typeId := ty,
                        timestamp := (st.lastHeader.timestamp + d) % 2 ^ 32 }, r1)
  else if fmtId = 2 then
    match readFmt2Hdr r with
    | none => none
    | some (d, r1) =>
      some ({ base with timeDelta := d,
                        timestamp := (st.lastHeader.timestamp + d) % 2 ^ 32 }, r1)
  else
    match st.assembling with
    | some m => some (m.header, r)
    | none =>
      some ({ base with
              timestamp := (st.lastHeader.timestamp + base.timeDelta) % 2 ^ 32 }, r)

/-- Extended-timestamp handling (readChunk step 3): when the relevant
field reached 0xFFFFFF, consume 4 bytes and substitute. -/
def applyExtTs (fmtId : Nat) (st : StreamState) (header : ChunkHeader)
    (r : List Nat) : Option (ChunkHeader × List Nat) :=
  let tsField := if fmtId = 1 ∨ fmtId = 2 then header.timeDelta else header.timestamp
  if 16777215 ≤ tsField then
    match readExt32 r with
    | none => none
    | some (ext, r1) =>
      if fmtId = 0 then some ({ header with timestamp := ext }, r1)
      else
        some ({ header with timeDelta := ext,
                            timestamp := (st.lastHeader.timestamp + ext) % 2 ^ 32 }, r1)
  else some (header, r)

/-- Steps 2 and 3 of readChunk composed: per-fmt message header, then
the extended-timestamp substitution. -/
def headerStage (fmtId : Nat) (st : StreamState) (base : ChunkHeader)
    (r : List Nat) : Option (ChunkHeader × List Nat) :=
  match parseMsgHeader fmtId st base r with
  | none => none
  | some (hdr1, r2) => applyExtTs fmtId st hdr1 r2

/-- Step 4 of readChunk: fill the assembling message (or start a new
one) with up to rx_chunk_size payload bytes; a completed message is
handed out and the per-CSID slot cleared, otherwise the partial is
stored back. -/
def payloadStage (cs : ChunkStream) (csId : Nat) (st : StreamState)
    (header : ChunkHeader) (r3 : List Nat) :
    Option (Option RMessage × ChunkStream × List Nat) :=
  let msg := (st.assembling).getD { header := header, payload := [] }
  let toRead := min (msg.header.length - msg.payload.length) cs.rxChunkSize
  match readN toRead r3 with
  | none => none
  | some (piece, r4) =>
    let msg2 : RMessage := { msg with payload := msg.payload ++ piece }
    let doneSt : StreamState := { lastHeader := header, assembling := none }
    let contSt : StreamState := { lastHeader := header, assembling := some msg2 }
    if msg2.header.length ≤ msg2.payload.length then
      some (some msg2, { cs with streams := updateCS cs.streams csId doneSt }, r4)
    else
      some (none, { cs with streams := updateCS cs.streams csId contSt }, r4)

/-- ChunkStream.readChunk: parse one chunk; some (some m, ..) when a
message completed, some (none, ..) when more chunks are needed, none on
an I/O error (short read). -/
def readChunk (cs : ChunkStream) (input : List Nat) :
    Option (Option RMessage × ChunkStream × List Nat) :=
  match input with
  | [] => none
  | h1 :: r0 =>
    let fmtId := h1 / 64 % 4
    match readBasicCs (h1 % 64) r0 with
    | none => none
    | some (csId, r1) =>
      let st := (lookupCS cs.streams csId).getD StreamState.fresh
      let base := { st.lastHeader with fmt := fmtId, csid := csId }
      match headerStage fmtId st base r1 with
      | none => none
      | some (header, r3) => payloadStage cs csId st header r3

/-- ReadMessage's interception of a completed SetChunkSize (type 1)
message: a 32-bit big-endian value v with 0 < v < 0x7FFFFFFF replaces
rx_chunk_size; anything else leaves it unchanged. -/
def applySetChunkSize (cs : ChunkStream) (m : RMessage) : ChunkStream :=
  if m.header.typeId = 1 ∧ 4 ≤ m.payload.length then
    let newSize := beVal (m.payload.take 4)
    if 0 < newSize ∧ newSize < 2147483647 then
      { cs with rxChunkSize := newSize }
    else cs
  else cs

/-- ChunkStream.ReadMessage: read chunks until a message completes,
intercept SetChunkSize, return the message.  Fueled; every chunk
consumes at least one byte, so input length bounds the loop. -/
def readMessageAux : Nat → ChunkStream → List Nat →
    Option (RMessage × ChunkStream × List Nat)
  | 0, _, _ => none
  | fuel + 1, cs, input =>
    match readChunk cs input with
    | none => none
    | some (some m, cs2, rest) => some (m, applySetChunkSize cs2 m, rest)
    | some (none, cs2, rest) => readMessageAux fuel cs2 rest

def readMessage (cs : ChunkStream) (input : List Nat) :
    Option (RMessage × ChunkStream × List Nat) :=
  readMessageAux (input.length + 1) cs input

/-! ### Simple RTMP handshake (internal/rtmp handshake)

Pure byte-stream transformers: each takes the remaining peer input and
returns the bytes written together with the input left unconsumed.
nowVal models nowFn(), rand1528 the 1528 random filler bytes drawn for
the local 1536-byte packet. -/

/-- simpleServerResponse: with the already-read 1536-byte C1, write S0,
S1 (timestamp, four zero bytes, filler) and S2 (C1 with the local
timestamp in bytes 0-3 and the peer timestamp C1[0:4] in bytes 4-7),
then fully consume the client's 1536-byte C2. -/
def simpleServerResponse (c1 : List Nat) (input : List Nat) (nowVal : Nat)
    (rand1528 : List Nat) : Option (List Nat × List Nat) :=
  let s1 := be32 nowVal ++ [0, 0, 0, 0] ++ rand1528
  let s2 := be32 nowVal ++ c1.take 4 ++ c1.drop 8
  match readN 1536 input with
  | none => none
  | some (_, rest) => some (3 :: (s1 ++ s2), rest)

/-- ServerHandshake, simple path: C0 must be 0x03, then a 1536-byte C1;
when bytes 4..7 are zero (the simple-handshake heuristic) respond with
simpleServerResponse.  The complex digest branch (HMAC-SHA256) is
outside this model: a C1 failing the heuristic yields none. -/
def serverHandshakeSimple (input : List Nat) (nowVal : Nat)
    (rand1528 : List Nat) : Option (List Nat × List Nat) :=
  match input with
  | 3 :: r0 =>
    match readN 1536 r0 with
    | none => none
    | some (c1, r1) =>
      if (c1.drop 4).take 4 = [0, 0, 0, 0] then
        simpleServerResponse c1 r1 nowVal rand1528
      else none
  | _ => none

/-- simpleClientHandshake: write C0 and C1 (timestamp, four zero bytes,
filler), read S0 (must be 0x03), the 1536-byte S1 and the full
1536-byte S2, then write C2 as a verbatim copy of S1. -/
def simpleClientHandshake (input : List Nat) (nowVal : Nat)
    (rand1528 : List Nat) : Option (List Nat × List Nat) :=
  let c1 := be32 nowVal ++ [0, 0, 0, 0] ++ rand1528
  match input with
  | 3 :: r0 =>
    match readN 1536 r0 with
    | none => none
    | some (s1, r1) =>
      match readN 1536 r1 with
      | none => none
      | some (_, r2) => some ((3 :: c1) ++ s1, r2)
  | _ => none

/-- The echo packet the claim predicts for a peer packet p: p with the
local timestamp overwritten in bytes 0-3 and the peer timestamp p[0:4]
copied into bytes 4-7 (this is what the server side actually sends). -/
def claimEcho (p : List Nat) (nowVal : Nat) : List Nat :=
  be32 nowVal ++ p.take 4 ++ p.drop 8

/-! ### Transparent-relay session handler (relay Server.handle)

Trace model of the non-transcode path for a session whose downstream
uses the simple handshake and whose connect command authenticates.  The
ordered event list mirrors the source order: downstream handshake
writes, then the connect message is read through the tee buffer (no
upstream traffic), then the client handshake with the upstream, then
the replayed connect bytes, then the downstream-to-upstream pump
(modelled as one write of the remaining downstream bytes; the
upstream-to-downstream pump writes nothing upstream). -/

inductive Phase where
  | hs
  | app
deriving DecidableEq, Repr

inductive REvent where
  | dsWrite (bs : List Nat)
  | upWrite (ph : Phase) (bs : List Nat)
deriving DecidableEq, Repr

/-- The upstream writes of a trace, in order. -/
def upstreamWrites (tr : List REvent) : List (Phase × List Nat) :=
  tr.filterMap fun e =>
    match e with
    | .upWrite ph bs => some (ph, bs)
    | .dsWrite _ => none

/-- decodeConnectCommand: AMF0 command payload (type 20) decoded
directly, AMF3 command payload (type 17) after stripping a leading zero
byte; anything else rejected. -/
def decodeConnectCmd (m : RMessage) : Option (List AMFValue) :=
  if m.header.typeId = 20 then (decodeAMF0 m.payload).toOption
  else if m.header.typeId = 17 then
    match m.payload with
    | 0 :: rest => (decodeAMF0 rest).toOption
    | _ => none
  else none

/-- Go-map style field lookup on a decoded object. -/
def lookupField : List (List Nat × AMFValue) → List Nat → Option AMFValue
  | [], _ => none
  | (k, v) :: rest, key => if k = key then some v else lookupField rest key

/-- The bytes of the string "connect". -/
def strConnect : List Nat := [99, 111, 110, 110, 101, 99, 116]

/-- The bytes of the string "app". -/
def strApp : List Nat := [97, 112, 112]

/-- The bytes of the string "token". -/
def strToken : List Nat := [116, 111, 107, 101, 110]

/-- Token extraction from the connect arguments: the command object is
argument index 2; the token field if it is a string, else the app
field (empty when absent); none when the command object is missing or
not an object (authentication then fails). -/
def connectToken (vals : List AMFValue) : Option (List Nat) :=
  match vals.drop 2 with
  | .obj fields :: _ =>
    let app := match lookupField fields strApp with
      | some (.str s) => s
      | _ => []
    let tok := match lookupField fields strToken with
      | some (.str s) => s
      | _ => app
    some tok
  | _ => none

structure HandleRun where
  trace : List REvent
  dsAfterHs : List Nat
  dsRest : List Nat
  connectBytes : List Nat
  upHsWrites : List Nat
deriving DecidableEq, Repr

/-- Server.handle, transparent-relay path, as a trace builder.  ds is
the downstream byte stream, upInput the upstream's responses, auth the
optional authenticator.  none models any aborted session (handshake
failure, unreadable or non-connect first command, auth refusal). -/
def handleModel (ds upInput : List Nat) (nowDs nowUp : Nat)
    (randDs randUp : List Nat) (auth : Option (List Nat → Bool)) :
    Option HandleRun :=
  match serverHandshakeSimple ds nowDs randDs with
  | none => none
  | some (dsW, ds1) =>
    match readMessage newChunkStream ds1 with
    | none => none
    | some (msg, _, ds2) =>
      let connectBytes := ds1.take (ds1.length - ds2.length)
      match decodeConnectCmd msg with
      | none => none
      | some vals =>
        match vals with
        | .str name :: _ =>
          if name = strConnect then
            let authOk := match auth with
              | none => true
              | some f =>
                match connectToken vals with
                | none => false
                | some tok => f tok
            if authOk then
              match simpleClientHandshake upInput nowUp randUp with
              | none => none
              | some (upW, _) =>
                some { trace := [.dsWrite dsW, .upWrite .hs upW,
                         .upWrite .app connectBytes, .upWrite .app ds2],
                       dsAfterHs := ds1, dsRest := ds2,
                       connectBytes := connectBytes, upHsWrites := upW }
            else none
          else none
        | _ => none

/-! ### Valid chunk sequences and their serialization (for the reader
correctness claim)

A WireChunk is one chunk of a valid stream in abstract form: ts is the
semantic timestamp value (absolute for fmt 0, delta for fmt 1/2,
unused for fmt 3), ext3 the extended-timestamp value a fmt-3 chunk
carries when the reader's rule demands one.  specStep is the
RTMP 1.0 reconstruction the specification describes: fmt 0 absolute,
fmt 1/2 previous plus delta (mod 2^32), fmt 3 inheriting the
in-progress header, or the previous header plus the previous delta at
message boundaries; payloads accumulate by concatenation and a message
completes when its declared length is reached. -/

structure WireChunk where
  fmt : Nat
  csid : Nat
  ts : Nat
  len : Nat
  typeId : Nat
  streamId : Nat
  ext3 : Nat
  payload : List Nat
deriving DecidableEq, Repr

/-- The header the RTMP 1.0 rules assign to a chunk, given the per-CSID
state.  The fmt-3 branches also track the wire convention for repeated
extended timestamps on fmt-3 chunks (present exactly when the relevant
timestamp reached 0xFFFFFF; the value read replaces the delta). -/
def specHeader (st : StreamState) (c : WireChunk) : ChunkHeader :=
  if c.fmt = 0 then
    { fmt := 0, csid := c.csid, timestamp := c.ts, length := c.len,
      typeId := c.typeId, streamId := c.streamId, timeDelta := 0 }
  else if c.fmt = 1 then
    { fmt := 1, csid := c.csid, timeDelta := c.ts, length := c.len,
      typeId := c.typeId, streamId := st.lastHeader.streamId,
      timestamp := (st.lastHeader.timestamp + c.ts) % 2 ^ 32 }
  else if c.fmt = 2 then
    { fmt := 2, csid := c.csid, timeDelta := c.ts,
      length := st.lastHeader.length, typeId := st.lastHeader.typeId,
      streamId := st.lastHeader.streamId,
      timestamp := (st.lastHeader.timestamp + c.ts) % 2 ^ 32 }
  else
    match st.assembling with
    | some m =>
      if 16777215 ≤ m.header.timestamp then
        { m.header with timeDelta := c.ext3,
                        timestamp := (st.lastHeader.timestamp + c.ext3) % 2 ^ 32 }
      else m.header
    | none =>
      let t0 := (st.lastHeader.timestamp + st.lastHeader.timeDelta) % 2 ^ 32
      if 16777215 ≤ t0 then
        { st.lastHeader with fmt := 3, csid := c.csid, timeDelta := c.ext3,
                             timestamp := (st.lastHeader.timestamp + c.ext3) % 2 ^ 32 }
      else
        { st.lastHeader with fmt := 3, csid := c.csid, timestamp := t0 }

/-- One abstract chunk of assembly: the in-progress message (fixed
header) or a new message with the chunk's header grows by the chunk
payload; completion hands the message out and clears the slot. -/
def specStep (cs : ChunkStream) (c : WireChunk) : Option RMessage × ChunkStream :=
  let st := (lookupCS cs.streams c.csid).getD StreamState.fresh
  let hdr := specHeader st c
  let msg := st.assembling.getD { header := hdr, payload := [] }
  let msg2 : RMessage := { msg with payload := msg.payload ++ c.payload }
  let doneSt : StreamState := { lastHeader := hdr, assembling := none }
  let contSt : StreamState := { lastHeader := hdr, assembling := some msg2 }
  if msg2.header.length ≤ msg2.payload.length then
    (some msg2, { cs with streams := updateCS cs.streams c.csid doneSt })
  else
    (none, { cs with streams := updateCS cs.streams c.csid contSt })

/-- State after a chunk, including the SetChunkSize interception a
completed message triggers. -/
def specNext (cs : ChunkStream) (c : WireChunk) : ChunkStream :=
  match specStep cs c with
  | (some m, cs2) => applySetChunkSize cs2 m
  | (none, cs2) => cs2

/-- Run the RTMP 1.0 rules over a chunk list, collecting completed
messages in order. -/
def specRun : ChunkStream → List WireChunk → List RMessage × ChunkStream
  | cs, [] => ([], cs)
  | cs, c :: rest =>
    match specStep cs c with
    | (some m, cs2) =>
      let r := specRun (applySetChunkSize cs2 m) rest
      (m :: r.1, r.2)
    | (none, cs2) => specRun cs2 rest

/-- The message length a chunk opens (fmt 0/1 carry it, fmt 2/3 inherit
it). -/
def specNewLen (st : StreamState) (c : WireChunk) : Nat :=
  if c.fmt = 0 ∨ c.fmt = 1 then c.len else st.lastHeader.length

/-- Validity of one chunk against the current state: field bounds, a
canonically encodable CSID, continuation chunks are fmt 3, and the
payload carries exactly min(remaining, chunk size) bytes as the
splitting rule requires. -/
def ValidChunk (cs : ChunkStream) (c : WireChunk) : Prop :=
  let st := (lookupCS cs.streams c.csid).getD StreamState.fresh
  2 ≤ c.csid ∧ c.csid ≤ 65599 ∧ c.fmt ≤ 3 ∧
  c.ts < 2 ^ 32 ∧ c.len < 2 ^ 24 ∧ c.typeId < 256 ∧
  c.streamId < 2 ^ 32 ∧ c.ext3 < 2 ^ 32 ∧
  (match st.assembling with
   | some m =>
     c.fmt = 3 ∧
     c.payload.length = min (m.header.length - m.payload.length) cs.rxChunkSize
   | none =>
     c.payload.length = min (specNewLen st c) cs.rxChunkSize)

/-- The timestamp field a fmt-3 chunk is judged by (the in-progress
absolute timestamp, or the inherited one at a boundary). -/
def fmt3TsField (cs : ChunkStream) (c : WireChunk) : Nat :=
  let st := (lookupCS cs.streams c.csid).getD StreamState.fresh
  match st.assembling with
  | some m => m.header.timestamp
  | none => (st.lastHeader.timestamp + st.lastHeader.timeDelta) % 2 ^ 32

/-- Canonical basic header for a chunk (1, 2 or 3 bytes by CSID
class). -/
def serBasic (c : WireChunk) : List Nat :=
  if c.csid < 64 then [c.fmt * 64 + c.csid]
  else if c.csid < 320 then [c.fmt * 64, c.csid - 64]
  else [c.fmt * 64 + 1, (c.csid - 64) % 256, (c.csid - 64) / 256]

/-- Per-fmt message header bytes, with the 0xFFFFFF escape in the
timestamp field. -/
def serHdr (c : WireChunk) : List Nat :=
  if c.fmt = 0 then
    be24 (min c.ts 16777215) ++ be24 c.len ++ [c.typeId] ++ le32 c.streamId
  else if c.fmt = 1 then be24 (min c.ts 16777215) ++ be24 c.len ++ [c.typeId]
  else if c.fmt = 2 then be24 (min c.ts 16777215)
  else []

/-- Extended-timestamp bytes, present exactly when the reader's rule
demands them. -/
def serExt (cs : ChunkStream) (c : WireChunk) : List Nat :=
  if c.fmt ≤ 2 then (if 16777215 ≤ c.ts then be32 c.ts else [])
  else (if 16777215 ≤ fmt3TsField cs c then be32 c.ext3 else [])

/-- Serialize one chunk: basic header in its canonical size class,
per-fmt message header with the 0xFFFFFF escape, the extended
timestamp where the format demands one, then the payload bytes. -/
def serializeChunk (cs : ChunkStream) (c : WireChunk) : List Nat :=
  serBasic c ++ (serHdr c ++ (serExt cs c ++ c.payload))

/-- Serialize a chunk sequence, threading the state each chunk leaves. -/
def serializeChunks : ChunkStream → List WireChunk → List Nat
  | _, [] => []
  | cs, c :: rest => serializeChunk cs c ++ serializeChunks (specNext cs c) rest

/-- A well-formed encoding: every chunk valid in sequence, and the
final chunk completes a message (the stream ends at a message
boundary). -/
def CleanSeq : ChunkStream → List WireChunk → Prop
  | _, [] => True
  | cs, c :: rest =>
    ValidChunk cs c ∧ (rest = [] → ((specStep cs c).1).isSome) ∧
    CleanSeq (specNext cs c) rest

/-- A chunk group: the chunks one ReadMessage call consumes (all
continue, the last completes). -/
def GroupOk : ChunkStream → List WireChunk → Prop
  | _, [] => False
  | cs, [c] => ValidChunk cs c ∧ ((specStep cs c).1).isSome
  | cs, c :: rest =>
    ValidChunk cs c ∧ (specStep cs c).1 = none ∧ GroupOk (specNext cs c) rest

/-- Drain a byte stream with repeated ReadMessage calls, collecting the
messages in order. -/
def readAllMsgsAux : Nat → ChunkStream → List Nat → List RMessage →
    Option (List RMessage × ChunkStream)
  | 0, _, _, _ => none
  | fuel + 1, cs, input, acc =>
    match input with
    | [] => some (acc, cs)
    | _ :: _ =>
      match readMessage cs input with
      | none => none
      | some (m, cs2, rest) => readAllMsgsAux fuel cs2 rest (acc ++ [m])

def readAllMsgs (cs : ChunkStream) (input : List Nat) :
    Option (List RMessage × ChunkStream) :=
  readAllMsgsAux (input.length + 1) cs input []

/-! ### Families of AMF0 test inputs for the limit claims -/

/-- Two-byte key for index i (distinct keys for distinct indices). -/
def keyBytes (i : Nat) : List Nat := [i / 256, i % 256]

/-- Wire bytes of n object entries with keys i, i+1, ... and null
values: each entry is a 2-byte key (length prefix 00 02) and the null
marker 0x05. -/
def pairBytes : Nat → Nat → List Nat
  | _, 0 => []
  | i, n + 1 => 0 :: 2 :: i / 256 :: i % 256 :: 5 :: pairBytes (i + 1) n

/-- The decoded form of those entries. -/
def genF : Nat → Nat → List (List Nat × AMFValue)
  | _, 0 => []
  | i, n + 1 => (keyBytes i, AMFValue.nullV) :: genF (i + 1) n

/-- A wire object with n such entries. -/
def objBytes (n : Nat) : List Nat := 3 :: (pairBytes 0 n ++ [0, 0, 9])

/-! ## Theorems -/

/-! ### C3: circuit breaker step relation -/

/-- Concrete session for the C1 witness: a zero-filled simple handshake,
then one fmt-0 chunk carrying an AMF0 "connect" command. -/
def chunkBytes0 : List Nat :=
  [3, 0, 0, 0, 0, 0, 10, 20, 0, 0, 0, 0, 2, 0, 7] ++ strConnect

def dsInput0 : List Nat :=
  3 :: (List.replicate 1536 0 ++ (List.replicate 1536 0 ++ chunkBytes0))

def upInput0 : List Nat :=
  3 :: (List.replicate 1536 0 ++ List.replicate 1536 0)

def hsRand : List Nat := List.replicate 1528 0

/-- The handshake response, upstream client-handshake bytes and full
session record the witness inputs produce. -/
def dsW0 : List Nat :=
  3 :: ((be32 0 ++ [0, 0, 0, 0] ++ hsRand) ++
    (be32 0 ++ (List.replicate 1536 (0 : Nat)).take 4 ++
      (List.replicate 1536 (0 : Nat)).drop 8))

def upW0 : List Nat :=
  (3 :: (be32 0 ++ [0, 0, 0, 0] ++ hsRand)) ++ List.replicate 1536 0

def run0 : HandleRun :=
  { trace := [.dsWrite dsW0, .upWrite .hs upW0, .upWrite .app chunkBytes0,
      .upWrite .app []],
    dsAfterHs := chunkBytes0, dsRest := [], connectBytes := chunkBytes0,
    upHsWrites := upW0 }

/-- Header, message and stream state the C1 witness chunk produces. -/
def hdr0 : ChunkHeader :=
  { fmt := 0, csid := 3, timestamp := 0, length := 10, typeId := 20,
    streamId := 0, timeDelta := 0 }

def msg0 : RMessage := { header := hdr0, payload := [2, 0, 7] ++ strConnect }

def cs1 : ChunkStream :=
  { rxChunkSize := 128,
    streams := [(3, { lastHeader := hdr0, assembling := none })] }

/-- A one-chunk valid sequence for the reader-correctness witness. -/
def chunkC2 : WireChunk :=
  { fmt := 0, csid := 3, ts := 0, len := 2, typeId := 20, streamId := 1,
    ext3 := 0, payload := [7, 8] }

/-- C3: the breaker's step relation: from Closed, a failure that reaches
max_failures moves to Open (the counter increments; below the bound it
stays Closed) and any success resets the failure counter; in Open, a
call at or before reset_timeout since the last failure short-circuits
(rejected, function not invoked) leaving the state untouched, while the
first call strictly after reset_timeout transitions to HalfOpen with
both counters reset and runs the function (one success then closes
exactly when success_threshold is at most 1, a failure reopens); in
HalfOpen, a success either reaches success_threshold and closes with
counters reset or just increments the success counter, and any failure
moves back to Open. -/
theorem breaker_step_relation (b : Breaker) (now : Nat) :
    (b.state = .closed →
      ((b.call now false).1.failures = b.failures + 1 ∧
       (b.call now false).1.state =
         (if b.maxFailures ≤ b.failures + 1 then .opened else .closed) ∧
       (b.call now false).2 = .ran false) ∧
      ((b.call now true).1 = { b with failures := 0 } ∧
       (b.call now true).2 = .ran true)) ∧
    (b.state = .opened → now - b.lastFailTime ≤ b.resetTimeout →
      ∀ ok, b.call now ok = (b, .rejected)) ∧
    (b.state = .opened → b.resetTimeout < now - b.lastFailTime →
      b.phase1 now =
        ({ b with state := .halfOpen, failures := 0, successCount := 0 }, true) ∧
      (∀ ok, (b.call now ok).2 = .ran ok) ∧
      (b.call now true).1.state =
        (if b.successThresh ≤ 1 then .closed else .halfOpen) ∧
      (b.call now false).1.state = .opened) ∧
    (b.state = .halfOpen →
      ((b.call now true).1 =
        (if b.successThresh ≤ b.successCount + 1 then
          { b with state := .closed, failures := 0, successCount := 0 }
         else { b with successCount := b.successCount + 1 }) ∧
       (b.call now false).1.state = .opened ∧
       (b.call now false).1.failures = b.failures + 1)) := by
  refine ⟨fun hc => ?_, fun ho ht => ?_, fun ho ht => ?_, fun hh => ?_⟩
  · constructor
    · refine ⟨?_, ?_, ?_⟩ <;>
        simp [Breaker.call, Breaker.phase1, Breaker.recordFailure, hc] <;>
        (split <;> simp)
    · constructor <;>
        simp [Breaker.call, Breaker.phase1, Breaker.recordSuccess, hc]
  · intro ok
    have hlt : ¬ b.resetTimeout < now - b.lastFailTime := by omega
    simp [Breaker.call, Breaker.phase1, ho, hlt]
  · have h1 : b.phase1 now =
        ({ b with state := .halfOpen, failures := 0, successCount := 0 }, true) := by
      simp [Breaker.phase1, ho, ht]
    refine ⟨h1, fun ok => ?_, ?_, ?_⟩
    · cases ok <;> simp [Breaker.call, h1]
    · simp [Breaker.call, h1, Breaker.recordSuccess]
      split <;> simp
    · simp [Breaker.call, h1, Breaker.recordFailure]
  · refine ⟨?_, ?_, ?_⟩ <;>
      simp [Breaker.call, Breaker.phase1, Breaker.recordSuccess,
        Breaker.recordFailure, hh]

/-- A concrete run of each hypothesis of the C3 theorem: a Closed
breaker one failure below its bound of 2 opens on the next failure. -/
theorem breaker_step_relation_witness :
    (Breaker.call { state := .closed, failures := 1, successCount := 0,
                    lastFailTime := 0, maxFailures := 2, resetTimeout := 5,
                    successThresh := 1 } 7 false).1.state = .opened := by
  have h := (breaker_step_relation { state := .closed, failures := 1,
                                     successCount := 0, lastFailTime := 0,
                                     maxFailures := 2, resetTimeout := 5,
                                     successThresh := 1 } 7).1 rfl
  have h2 := h.1.2.1
  simpa using h2

/-! ### C7: retry config defaulting -/

/-- C7 counterexample: the jitter variant does not replace an invalid
config by the defaults; with config (0/0/0/0) it performs zero attempts
(the claim predicts the default three). -/
theorem retry_jitter_no_default_cex :
    doWithJitterRun
        { maxAttempts := 0, initialDelay := 0, maxDelay := 0, multiplier := 0 }
        (fun _ => false) = (false, 0) ∧
    (doWithJitterRun
        { maxAttempts := 0, initialDelay := 0, maxDelay := 0, multiplier := 0 }
        (fun _ => false)).2 ≠ 3 := by
  constructor
  · rfl
  · decide

/-- Attempt counts never exceed the loop bound. -/
theorem retryLoop_le (fn : Nat → Bool) :
    ∀ n i, (retryLoop fn n i).2 ≤ i + n := by
  intro n
  induction n with
  | zero => intro i; simp [retryLoop]
  | succ k ih =>
    intro i
    by_cases h : fn i
    · simp [retryLoop, h]
    · have := ih (i + 1)
      simp only [retryLoop, h, Bool.false_eq_true, if_false]
      omega

/-- C7 (amended): only the plain retry.Do replaces invalid (non-
positive) config fields by the defaults 3 attempts, 1 s, 30 s,
multiplier 2, so Do with config (0/0/0/0) invokes the guarded function
exactly 3 times when it keeps failing (and never more than 3);
DoWithJitter leaves the config untouched, so with max_attempts 0 it
invokes the function zero times and fails. -/
theorem retry_defaulting (fn : Nat → Bool) (hf : ∀ i, fn i = false) :
    normalizeDo { maxAttempts := 0, initialDelay := 0, maxDelay := 0, multiplier := 0 } =
      { maxAttempts := 3, initialDelay := 1000000000,
        maxDelay := 30000000000, multiplier := 2 } ∧
    doRun { maxAttempts := 0, initialDelay := 0, maxDelay := 0, multiplier := 0 } fn =
      (false, 3) ∧
    doWithJitterRun { maxAttempts := 0, initialDelay := 0, maxDelay := 0, multiplier := 0 } fn =
      (false, 0) ∧
    (∀ fn2 : Nat → Bool,
      (doRun { maxAttempts := 0, initialDelay := 0, maxDelay := 0, multiplier := 0 } fn2).2 ≤ 3) := by
  refine ⟨by decide, ?_, rfl, ?_⟩
  · simp [doRun, normalizeDo, retryLoop, hf]
  · intro fn2
    have h := retryLoop_le fn2 3 0
    simpa [doRun, normalizeDo] using h

/-- Concrete run of the C7 theorem on an always-failing function. -/
theorem retry_defaulting_witness :
    doRun { maxAttempts := 0, initialDelay := 0, maxDelay := 0, multiplier := 0 }
      (fun _ => false) = (false, 3) :=
  (retry_defaulting (fun _ => false) (fun _ => rfl)).2.1

/-! ### C9: pool round-robin selection -/

/-- The weighted walk finds an endpoint whenever the position lies
below the total weight. -/
theorem walkWeights_isSome (l : List EndpointSt) :
    ∀ pos, pos < totalWeight l → ∃ url, walkWeights pos l = some url := by
  induction l with
  | nil => intro pos h; simp [totalWeight] at h
  | cons e rest ih =>
    intro pos h
    by_cases hw : pos < e.weight
    · exact ⟨e.url, by simp [walkWeights, hw]⟩
    · have hlt : pos - e.weight < totalWeight rest := by
        simp [totalWeight] at h ⊢
        omega
      obtain ⟨url, hu⟩ := ih (pos - e.weight) hlt
      exact ⟨url, by simp [walkWeights, hw, hu]⟩

/-- C9: Pick builds its candidates from the healthy endpoints (full
list only when none are healthy — this is the definition of
candidatesOf used throughout), fails with the invalid-weights error
when the candidates' total weight is zero, and otherwise selects by
walking the candidates at position rr_index mod total_weight and
advances rr_index; concretely, with endpoints A (weight 1) and B
(weight 2) both healthy, six picks return A,B,B,A,B,B, and after A is
marked unhealthy the next three picks all return B. -/
theorem pool_pick_round_robin :
    (∀ p : Pool, p.endpoints ≠ [] → totalWeight (candidatesOf p) = 0 →
      p.pick = .error .invalidWeights) ∧
    (∀ p : Pool, p.endpoints ≠ [] → totalWeight (candidatesOf p) ≠ 0 →
      ∃ url,
        walkWeights (p.rrIndex % totalWeight (candidatesOf p)) (candidatesOf p) =
          some url ∧
        p.pick = .ok (url,
          { p with rrIndex := (p.rrIndex + 1) % totalWeight (candidatesOf p) })) ∧
    Pool.pickSeq 6
        { endpoints := [{ url := "A", weight := 1, healthy := true },
                        { url := "B", weight := 2, healthy := true }],
          rrIndex := 0 } =
      .ok (["A", "B", "B", "A", "B", "B"],
        { endpoints := [{ url := "A", weight := 1, healthy := true },
                        { url := "B", weight := 2, healthy := true }],
          rrIndex := 0 }) ∧
    Pool.pickSeq 3
        { endpoints := [{ url := "A", weight := 1, healthy := false },
                        { url := "B", weight := 2, healthy := true }],
          rrIndex := 0 } =
      .ok (["B", "B", "B"],
        { endpoints := [{ url := "A", weight := 1, healthy := false },
                        { url := "B", weight := 2, healthy := true }],
          rrIndex := 1 }) := by
  refine ⟨?_, ?_, by rfl, by rfl⟩
  · intro p hne hz
    simp [Pool.pick, hne, hz]
  · intro p hne hz
    have hmod : p.rrIndex % totalWeight (candidatesOf p) <
        totalWeight (candidatesOf p) :=
      Nat.mod_lt _ (Nat.pos_of_ne_zero hz)
    obtain ⟨url, hu⟩ := walkWeights_isSome (candidatesOf p) _ hmod
    exact ⟨url, hu, by simp [Pool.pick, hne, hz, hu]⟩

/-- Concrete run of the C9 theorem: an all-zero-weight pool fails with
the invalid-weights error. -/
theorem pool_pick_round_robin_witness :
    Pool.pick { endpoints := [{ url := "Z", weight := 0, healthy := true }],
                rrIndex := 0 } = .error .invalidWeights :=
  pool_pick_round_robin.1
    { endpoints := [{ url := "Z", weight := 0, healthy := true }], rrIndex := 0 }
    (by decide) (by decide)

/-! ### C10: fmt-3 chunk on a chunk-stream-id with no recorded state -/

/-- C10: a fmt-3 basic header (byte 0xC0 + csid) on a CSID with no
recorded state and no message in progress is not an error: the reader
synthesizes a header from the zero-valued last header, and since the
inherited length is 0 it immediately returns a completed message with
type-id 0, timestamp 0 and empty payload, consuming no payload bytes. -/
theorem fmt3_fresh_csid (csid : Nat) (h2 : 2 ≤ csid) (h64 : csid < 64)
    (extra : List Nat) :
    readMessage newChunkStream ((192 + csid) :: extra) =
      some ({ header := { fmt := 3, csid := csid, timestamp := 0, length := 0,
                          typeId := 0, streamId := 0, timeDelta := 0 },
              payload := [] },
        { rxChunkSize := 128,
          streams := [(csid,
            { lastHeader := { fmt := 3, csid := csid, timestamp := 0, length := 0,
                              typeId := 0, streamId := 0, timeDelta := 0 },
              assembling := none })] },
        extra) := by
  have hdiv : (192 + csid) / 64 % 4 = 3 := by omega
  have hmod : (192 + csid) % 64 = csid := by omega
  have h0 : csid ≠ 0 := by omega
  have h1 : csid ≠ 1 := by omega
  simp [readMessage, readMessageAux, readChunk, hdiv, hmod, readBasicCs, h0, h1,
    newChunkStream, lookupCS, StreamState.fresh, ChunkHeader.zero, headerStage,
    payloadStage, parseMsgHeader, applyExtTs, readN, updateCS, applySetChunkSize]

/-- Concrete run of the C10 theorem at CSID 3 (wire byte 0xC3). -/
theorem fmt3_fresh_csid_witness :
    readMessage newChunkStream [195, 7] =
      some ({ header := { fmt := 3, csid := 3, timestamp := 0, length := 0,
                          typeId := 0, streamId := 0, timeDelta := 0 },
              payload := [] },
        { rxChunkSize := 128,
          streams := [(3,
            { lastHeader := { fmt := 3, csid := 3, timestamp := 0, length := 0,
                              typeId := 0, streamId := 0, timeDelta := 0 },
              assembling := none })] },
        [7]) :=
  fmt3_fresh_csid 3 (by decide) (by decide) [7]

/-! ### C6: SetChunkSize interception -/

/-- The payload stage never touches the receive chunk size. -/
theorem payloadStage_rx (cs : ChunkStream) (csId : Nat) (st : StreamState)
    (header : ChunkHeader) (r3 : List Nat) (om : Option RMessage)
    (cs2 : ChunkStream) (rest : List Nat)
    (h : payloadStage cs csId st header r3 = some (om, cs2, rest)) :
    cs2.rxChunkSize = cs.rxChunkSize := by
  simp only [payloadStage] at h
  split at h
  · exact absurd h (by simp)
  · split at h <;>
      (simp only [Option.some.injEq, Prod.mk.injEq] at h
       obtain ⟨-, h2, -⟩ := h
       rw [← h2])

/-- readChunk never touches the receive chunk size. -/
theorem readChunk_rx_preserved (cs : ChunkStream) (input : List Nat)
    (om : Option RMessage) (cs2 : ChunkStream) (rest : List Nat)
    (h : readChunk cs input = some (om, cs2, rest)) :
    cs2.rxChunkSize = cs.rxChunkSize := by
  simp only [readChunk] at h
  split at h
  · exact absurd h (by simp)
  · split at h
    · exact absurd h (by simp)
    · split at h
      · exact absurd h (by simp)
      · exact payloadStage_rx _ _ _ _ _ _ _ _ h

/-- The rx chunk size applySetChunkSize leaves behind, as one formula. -/
theorem applySetChunkSize_rx (cs : ChunkStream) (m : RMessage) :
    (applySetChunkSize cs m).rxChunkSize =
      (if m.header.typeId = 1 ∧ 4 ≤ m.payload.length ∧
          0 < beVal (m.payload.take 4) ∧ beVal (m.payload.take 4) < 2147483647
       then beVal (m.payload.take 4) else cs.rxChunkSize) := by
  simp only [applySetChunkSize]
  split_ifs with h1 h2 h3 h4 h5 <;> try rfl
  · exact absurd ⟨h1.1, h1.2, h2.1, h2.2⟩ h3
  · exact absurd ⟨h4.2.2.1, h4.2.2.2⟩ h2
  · exact absurd ⟨h5.1, h5.2.1⟩ h1

/-- ReadMessage's loop: the chunk size after a returned message is
exactly the interception formula applied to the prior size. -/
theorem readMessageAux_rx (fuel : Nat) :
    ∀ cs input m cs2 rest,
      readMessageAux fuel cs input = some (m, cs2, rest) →
      cs2.rxChunkSize =
        (if m.header.typeId = 1 ∧ 4 ≤ m.payload.length ∧
            0 < beVal (m.payload.take 4) ∧ beVal (m.payload.take 4) < 2147483647
         then beVal (m.payload.take 4) else cs.rxChunkSize) := by
  induction fuel with
  | zero => intro cs input m cs2 rest h; exact absurd h (by simp [readMessageAux])
  | succ k ih =>
    intro cs input m cs2 rest h
    simp only [readMessageAux] at h
    split at h
    · exact absurd h (by simp)
    · rename_i m0 cs0 rest0 heq
      simp only [Option.some.injEq, Prod.mk.injEq] at h
      obtain ⟨hm, hcs, -⟩ := h
      have hrx := readChunk_rx_preserved cs input _ _ _ heq
      subst hm
      rw [← hcs, applySetChunkSize_rx, hrx]
    · rename_i cs0 rest0 heq
      have hrx := readChunk_rx_preserved cs input _ _ _ heq
      have := ih cs0 rest0 m cs2 rest h
      rw [hrx] at this
      exact this

/-- C6 counterexample: a completed SetChunkSize message carrying
0x7FFFFFFF = 2^31 - 1 (which the claim's bound 0 < v < 2^31 admits)
does not update rx_chunk_size: the code requires v < 0x7FFFFFFF
strictly, so the size stays at 128; the message is still returned. -/
theorem setchunksize_boundary_cex :
    (readMessage newChunkStream
        ([2, 0, 0, 0, 0, 0, 4, 1, 0, 0, 0, 0] ++ [127, 255, 255, 255])).map
      (fun r => (r.2.1.rxChunkSize, r.1.payload, r.2.2)) =
      some (128, [127, 255, 255, 255], []) ∧
    0 < 2147483647 ∧ 2147483647 < 2 ^ 31 ∧ (128 : Nat) ≠ 2147483647 := by
  refine ⟨by rfl, by norm_num⟩

/-- C6 (amended): when ReadMessage completes a message, the new
rx_chunk_size is the message's 32-bit big-endian payload value exactly
when the message is SetChunkSize (type 1) with at least 4 payload bytes
and 0 < v < 2^31 - 1 (i.e. v < 0x7FFFFFFF, one below the claim's
bound); otherwise the current size is kept; in both cases the completed
message is returned to the caller. -/
theorem setchunksize_update_rule (cs : ChunkStream) (input : List Nat)
    (m : RMessage) (cs2 : ChunkStream) (rest : List Nat)
    (h : readMessage cs input = some (m, cs2, rest)) :
    cs2.rxChunkSize =
      (if m.header.typeId = 1 ∧ 4 ≤ m.payload.length ∧
          0 < beVal (m.payload.take 4) ∧ beVal (m.payload.take 4) < 2147483647
       then beVal (m.payload.take 4) else cs.rxChunkSize) :=
  readMessageAux_rx (input.length + 1) cs input m cs2 rest h

/-- Concrete run of the C6 theorem: value 0x7FFFFFFE (in range) does
update the chunk size. -/
theorem setchunksize_update_rule_witness :
    ChunkStream.rxChunkSize
      { rxChunkSize := 2147483646,
        streams := [(2,
          { lastHeader := { fmt := 0, csid := 2, timestamp := 0, length := 4,
                            typeId := 1, streamId := 0, timeDelta := 0 },
            assembling := none })] } =
      (if (1 : Nat) = 1 ∧ 4 ≤ [127, 255, 255, 254].length ∧
          0 < beVal ([127, 255, 255, 254].take 4) ∧
          beVal ([127, 255, 255, 254].take 4) < 2147483647
       then beVal ([127, 255, 255, 254].take 4) else 128) := by
  have h := setchunksize_update_rule newChunkStream
    ([2, 0, 0, 0, 0, 0, 4, 1, 0, 0, 0, 0] ++ [127, 255, 255, 254])
    { header := { fmt := 0, csid := 2, timestamp := 0, length := 4,
                  typeId := 1, streamId := 0, timeDelta := 0 },
      payload := [127, 255, 255, 254] }
    { rxChunkSize := 2147483646,
      streams := [(2,
        { lastHeader := { fmt := 0, csid := 2, timestamp := 0, length := 4,
                          typeId := 1, streamId := 0, timeDelta := 0 },
          assembling := none })] }
    [] (by rfl)
  exact h

/-! ### C8: simple-handshake echo packets -/

/-- Reading exactly the length of a prefix returns that prefix. -/
theorem readN_exact (l rest : List Nat) :
    readN l.length (l ++ rest) = some (l, rest) := by
  simp [readN]

/-- C8 counterexample: the client role does not overwrite any
timestamp in its echo: C2 is the peer's S1 verbatim.  With S1 all 9s
and local timestamp 5, the written echo is S1 itself, which differs
from the echo packet the claim describes (local timestamp in bytes 0-3,
peer timestamp in bytes 4-7). -/
theorem client_echo_verbatim_cex :
    simpleClientHandshake
        (3 :: (List.replicate 1536 9 ++ List.replicate 1536 7)) 5
        (List.replicate 1528 0) =
      some ((3 :: (be32 5 ++ [0, 0, 0, 0] ++ List.replicate 1528 0)) ++
        List.replicate 1536 9, []) ∧
    (List.replicate 1536 9 : List Nat) ≠ claimEcho (List.replicate 1536 9) 5 := by
  constructor
  · have h1 : readN 1536 (List.replicate 1536 9 ++ List.replicate 1536 7) =
        some (List.replicate 1536 9, List.replicate 1536 7) := by
      have h := readN_exact (List.replicate 1536 9) (List.replicate 1536 7)
      rwa [List.length_replicate] at h
    have h2 : readN 1536 (List.replicate 1536 7) =
        some (List.replicate 1536 7, []) := by
      have h := readN_exact (List.replicate 1536 7) []
      rwa [List.length_replicate, List.append_nil] at h
    simp only [simpleClientHandshake, h1, h2]
  · intro h
    have h4 := congrArg (List.take 4) h
    have hrep : List.take 4 (List.replicate 1536 9) = [9, 9, 9, 9] := rfl
    have hclaim : List.take 4 (claimEcho (List.replicate 1536 9) 5) =
        [0, 0, 0, 5] := rfl
    rw [hrep, hclaim] at h4
    exact absurd h4 (by decide)

/-- C8 (amended): the server-side echo S2 equals the peer's C1 with the
local timestamp overwritten in bytes 0-3 and the peer's timestamp
C1[0:4] copied into bytes 4-7, and the server fully consumes the
peer's 1536-byte C2 before returning; the client-side echo C2 is the
peer's S1 copied verbatim (no timestamp overwrite), written after the
client has fully consumed the 1536-byte S2. -/
theorem handshake_echo (nowVal : Nat) (rand1528 : List Nat) :
    (∀ c1 c2 rest : List Nat, c1.length = 1536 → c2.length = 1536 →
      simpleServerResponse c1 (c2 ++ rest) nowVal rand1528 =
        some (3 :: ((be32 nowVal ++ [0, 0, 0, 0] ++ rand1528) ++
          claimEcho c1 nowVal), rest)) ∧
    (∀ s1 s2 rest : List Nat, s1.length = 1536 → s2.length = 1536 →
      simpleClientHandshake (3 :: (s1 ++ (s2 ++ rest))) nowVal rand1528 =
        some ((3 :: (be32 nowVal ++ [0, 0, 0, 0] ++ rand1528)) ++ s1, rest)) := by
  constructor
  · intro c1 c2 rest h1 h2
    have hr : readN 1536 (c2 ++ rest) = some (c2, rest) := by
      have := readN_exact c2 rest
      rwa [h2] at this
    simp [simpleServerResponse, hr, claimEcho]
  · intro s1 s2 rest h1 h2
    have hr1 : readN 1536 (s1 ++ (s2 ++ rest)) = some (s1, s2 ++ rest) := by
      have := readN_exact s1 (s2 ++ rest)
      rwa [h1] at this
    have hr2 : readN 1536 (s2 ++ rest) = some (s2, rest) := by
      have := readN_exact s2 rest
      rwa [h2] at this
    simp [simpleClientHandshake, hr1, hr2]

/-- Concrete run of the C8 theorem (server side, all-1s C1, all-2s
C2). -/
theorem handshake_echo_witness :
    simpleServerResponse (List.replicate 1536 1)
        (List.replicate 1536 2 ++ [4, 4]) 0 (List.replicate 1528 0) =
      some (3 :: ((be32 0 ++ [0, 0, 0, 0] ++ List.replicate 1528 0) ++
        claimEcho (List.replicate 1536 1) 0), [4, 4]) :=
  (handshake_echo 0 (List.replicate 1528 0)).1
    (List.replicate 1536 1) (List.replicate 1536 2) [4, 4]
    (by rw [List.length_replicate]) (by rw [List.length_replicate])

/-! ### C4: AMF0 hard limits -/

/-- The null marker decodes immediately with any positive fuel. -/
theorem decodeNull_marker (fuel : Nat) (input : List Nat) :
    decodeWithMarker (fuel + 1) 5 input = .ok (.nullV, input) := rfl

/-- decodeLoop on n null markers, below the value limit. -/
theorem decodeLoop_nulls_ok :
    ∀ n fuel acc, n < fuel → acc.length + n ≤ 999 →
      decodeLoop fuel (List.replicate n 5) acc =
        .ok (acc ++ List.replicate n AMFValue.nullV) := by
  intro n
  induction n with
  | zero =>
    intro fuel acc hf ha
    obtain ⟨f, rfl⟩ : ∃ f, fuel = f + 1 := ⟨fuel - 1, by omega⟩
    have hlim : ¬ 1000 ≤ acc.length := by omega
    simp [decodeLoop, hlim, decodeValueF, readByteL]
  | succ k ih =>
    intro fuel acc hf ha
    obtain ⟨f, rfl⟩ : ∃ f, fuel = f + 1 := ⟨fuel - 1, by omega⟩
    have hlim : ¬ 1000 ≤ acc.length := by omega
    have hval : decodeValueF ((List.replicate (k + 1) 5).length + 1)
        (List.replicate (k + 1) 5) = .ok (.nullV, List.replicate k 5) := by
      rw [List.replicate_succ]
      simp only [decodeValueF, readByteL, List.length_cons, List.length_replicate]
      exact decodeNull_marker (k + 1) (List.replicate k 5)
    simp only [decodeLoop, hlim, if_false]
    rw [hval]
    show decodeLoop f (List.replicate k 5) (acc ++ [AMFValue.nullV]) = _
    have := ih f (acc ++ [AMFValue.nullV]) (by omega) (by simp; omega)
    rw [this]
    simp [List.replicate_succ]

/-- decodeLoop on n null markers, reaching the value limit. -/
theorem decodeLoop_nulls_limit :
    ∀ n fuel acc, 1000 ≤ acc.length + n → acc.length ≤ 1000 →
      1000 - acc.length < fuel →
      decodeLoop fuel (List.replicate n 5) acc = .error .valueLimit := by
  intro n
  induction n with
  | zero =>
    intro fuel acc h1 h2 hf
    obtain ⟨f, rfl⟩ : ∃ f, fuel = f + 1 := ⟨fuel - 1, by omega⟩
    have hlim : 1000 ≤ acc.length := by omega
    simp [decodeLoop, hlim]
  | succ k ih =>
    intro fuel acc h1 h2 hf
    obtain ⟨f, rfl⟩ : ∃ f, fuel = f + 1 := ⟨fuel - 1, by omega⟩
    by_cases hlim : 1000 ≤ acc.length
    · simp [decodeLoop, hlim]
    · have hval : decodeValueF ((List.replicate (k + 1) 5).length + 1)
          (List.replicate (k + 1) 5) = .ok (.nullV, List.replicate k 5) := by
        rw [List.replicate_succ]
        simp only [decodeValueF, readByteL, List.length_cons, List.length_replicate]
        exact decodeNull_marker (k + 1) (List.replicate k 5)
      simp only [decodeLoop, hlim, if_false]
      rw [hval]
      show decodeLoop f (List.replicate k 5) (acc ++ [AMFValue.nullV]) = _
      exact ih f (acc ++ [AMFValue.nullV]) (by simp; omega) (by simp; omega)
        (by simp; omega)

theorem genF_length : ∀ n i, (genF i n).length = n := by
  intro n
  induction n with
  | zero => intro i; rfl
  | succ k ih => intro i; simp [genF, ih]

theorem keyBytes_inj {i j : Nat} (h : keyBytes i = keyBytes j) : i = j := by
  simp only [keyBytes, List.cons.injEq, and_true] at h
  have hi := Nat.div_add_mod i 256
  have hj := Nat.div_add_mod j 256
  omega

/-- Inserting a fresh key appends it (Go map insertion order for a key
not yet present). -/
theorem mapInsert_fresh :
    ∀ (fields : List (List Nat × AMFValue)) (k : List Nat) (v : AMFValue),
      k ∉ fields.map Prod.fst → mapInsert fields k v = fields ++ [(k, v)] := by
  intro fields
  induction fields with
  | nil => intro k v _; rfl
  | cons p rest ih =>
    intro k v hk
    simp only [List.map_cons, List.mem_cons] at hk
    push_neg at hk
    simp only [mapInsert]
    rw [if_neg (fun he => hk.1 he.symm), ih k v hk.2]
    simp

theorem genF_keys_mem : ∀ n j key, key ∈ (genF j n).map Prod.fst →
    ∃ m, j ≤ m ∧ m < j + n ∧ key = keyBytes m := by
  intro n
  induction n with
  | zero => intro j key h; simp [genF] at h
  | succ k ih =>
    intro j key h
    simp only [genF, List.map_cons, List.mem_cons] at h
    rcases h with h | h
    · exact ⟨j, le_refl j, by omega, h⟩
    · obtain ⟨m, h1, h2, h3⟩ := ih (j + 1) key h
      exact ⟨m, by omega, by omega, h3⟩

theorem genF_snoc : ∀ n j, genF j n ++ [(keyBytes (j + n), AMFValue.nullV)] =
    genF j (n + 1) := by
  intro n
  induction n with
  | zero => intro j; simp [genF]
  | succ k ih =>
    intro j
    have := ih (j + 1)
    simp only [genF, List.cons_append, List.cons.injEq, true_and]
    rw [show j + (k + 1) = j + 1 + k from by omega]
    exact this

/-- A nonempty length-prefixed string of 2 bytes parses off the front. -/
theorem decodeStringM_pair (a b : Nat) (tail : List Nat)
    (hv : 0 < a * 256 + b) (hb : a < 256) (hc : b < 256) :
    ∀ r rest, tail = r ++ rest → r.length = a * 256 + b →
      decodeStringM (a :: b :: tail) = .ok (r, rest) := by
  intro r rest htail hlen
  have hval : beVal [a, b] = a * 256 + b := by simp [beVal]
  have h2 : readFullE 2 (a :: b :: tail) = .ok ([a, b], tail) := by
    simp [readFullE]
  have hle : ¬ 65535 < a * 256 + b := by omega
  have hr : readFullE (a * 256 + b) tail = .ok (r, rest) := by
    rw [htail, ← hlen]
    simp [readFullE]
  simp only [decodeStringM, h2, hval]
  rw [if_neg (by omega), if_neg hle, hr]

/-- The empty key plus object-end marker ends an object. -/
theorem decodeStringM_empty (tail : List Nat) :
    decodeStringM (0 :: 0 :: tail) = .ok ([], tail) := by
  have h2 : readFullE 2 (0 :: 0 :: tail) = .ok ([0, 0], tail) := by
    simp [readFullE]
  simp [decodeStringM, h2, beVal]

/-- No generated key collides with a later index. -/
theorem keyBytes_not_mem_genF (i : Nat) :
    keyBytes i ∉ (genF 0 i).map Prod.fst := by
  intro h
  obtain ⟨m, -, hlt, he⟩ := genF_keys_mem i 0 (keyBytes i) h
  have := keyBytes_inj he
  omega

/-- decodeObject on generated entries below the key limit. -/
theorem objFields_gen_ok :
    ∀ n i fuel rest, i + n ≤ 499 → n + 1 ≤ fuel →
      decodeObjFields fuel (pairBytes i n ++ (0 :: 0 :: 9 :: rest)) (genF 0 i) =
        .ok (.obj (genF 0 (i + n)), rest) := by
  intro n
  induction n with
  | zero =>
    intro i fuel rest hle hf
    obtain ⟨f, rfl⟩ : ∃ f, fuel = f + 1 := ⟨fuel - 1, by omega⟩
    have hlim : ¬ 500 ≤ (genF 0 i).length := by rw [genF_length]; omega
    simp only [pairBytes, List.nil_append, decodeObjFields, hlim, if_false,
      decodeStringM_empty, readByteL]
    rfl
  | succ k ih =>
    intro i fuel rest hle hf
    obtain ⟨f2, rfl⟩ : ∃ f2, fuel = f2 + 2 := ⟨fuel - 2, by omega⟩
    have hlim : ¬ 500 ≤ (genF 0 i).length := by rw [genF_length]; omega
    have hkey : decodeStringM (0 :: 2 :: (i / 256 :: i % 256 :: 5 ::
        (pairBytes (i + 1) k ++ (0 :: 0 :: 9 :: rest)))) =
        .ok ([i / 256, i % 256],
          5 :: (pairBytes (i + 1) k ++ (0 :: 0 :: 9 :: rest))) :=
      decodeStringM_pair 0 2 _ (by omega) (by omega) (by omega)
        [i / 256, i % 256] _ rfl rfl
    show decodeObjFields (f2 + 1 + 1)
        ((0 :: 2 :: i / 256 :: i % 256 :: 5 :: pairBytes (i + 1) k) ++
          (0 :: 0 :: 9 :: rest)) (genF 0 i) = _
    simp only [List.cons_append, decodeObjFields, hlim, if_false]
    rw [hkey]
    show decodeObjFields (f2 + 1) (pairBytes (i + 1) k ++ (0 :: 0 :: 9 :: rest))
        (mapInsert (genF 0 i) [i / 256, i % 256] AMFValue.nullV) = _
    have hfresh := keyBytes_not_mem_genF i
    rw [show ([i / 256, i % 256] : List Nat) = keyBytes i from rfl,
      mapInsert_fresh (genF 0 i) (keyBytes i) AMFValue.nullV hfresh,
      show keyBytes i = keyBytes (0 + i) from by rw [Nat.zero_add],
      genF_snoc i 0]
    rw [ih (i + 1) (f2 + 1) rest (by omega) (by omega)]
    rw [show i + 1 + k = i + (k + 1) from by omega]

/-- decodeObject on generated entries at or above the key limit. -/
theorem objFields_gen_limit :
    ∀ n i fuel rest, 500 ≤ i + n → i ≤ 500 → 501 - i ≤ fuel →
      decodeObjFields fuel (pairBytes i n ++ (0 :: 0 :: 9 :: rest)) (genF 0 i) =
        .error .keyLimit := by
  intro n
  induction n with
  | zero =>
    intro i fuel rest h5 hi hf
    obtain ⟨f, rfl⟩ : ∃ f, fuel = f + 1 := ⟨fuel - 1, by omega⟩
    have hlim : 500 ≤ (genF 0 i).length := by rw [genF_length]; omega
    simp [decodeObjFields, hlim]
  | succ k ih =>
    intro i fuel rest h5 hi hf
    by_cases hlim : 500 ≤ i
    · obtain ⟨f, rfl⟩ : ∃ f, fuel = f + 1 := ⟨fuel - 1, by omega⟩
      have hl : 500 ≤ (genF 0 i).length := by rw [genF_length]; omega
      simp [decodeObjFields, hl]
    · obtain ⟨f2, rfl⟩ : ∃ f2, fuel = f2 + 2 := ⟨fuel - 2, by omega⟩
      have hl : ¬ 500 ≤ (genF 0 i).length := by rw [genF_length]; omega
      have hkey : decodeStringM (0 :: 2 :: (i / 256 :: i % 256 :: 5 ::
          (pairBytes (i + 1) k ++ (0 :: 0 :: 9 :: rest)))) =
          .ok ([i / 256, i % 256],
            5 :: (pairBytes (i + 1) k ++ (0 :: 0 :: 9 :: rest))) :=
        decodeStringM_pair 0 2 _ (by omega) (by omega) (by omega)
          [i / 256, i % 256] _ rfl rfl
      show decodeObjFields (f2 + 1 + 1)
          ((0 :: 2 :: i / 256 :: i % 256 :: 5 :: pairBytes (i + 1) k) ++
            (0 :: 0 :: 9 :: rest)) (genF 0 i) = _
      simp only [List.cons_append, decodeObjFields, hl, if_false]
      rw [hkey]
      show decodeObjFields (f2 + 1) (pairBytes (i + 1) k ++ (0 :: 0 :: 9 :: rest))
          (mapInsert (genF 0 i) [i / 256, i % 256] AMFValue.nullV) = _
      have hfresh := keyBytes_not_mem_genF i
      rw [show ([i / 256, i % 256] : List Nat) = keyBytes i from rfl,
        mapInsert_fresh (genF 0 i) (keyBytes i) AMFValue.nullV hfresh,
        show keyBytes i = keyBytes (0 + i) from by rw [Nat.zero_add],
        genF_snoc i 0]
      exact ih (i + 1) (f2 + 1) rest (by omega) (by omega) (by omega)

theorem pairBytes_length : ∀ n i, (pairBytes i n).length = 5 * n := by
  intro n
  induction n with
  | zero => intro i; rfl
  | succ k ih => intro i; simp [pairBytes, ih]; omega

theorem objBytes_length (n : Nat) : (objBytes n).length = 5 * n + 4 := by
  simp [objBytes, pairBytes_length]

/-- Top-level decode of n null values, n below 1000. -/
theorem decodeAMF0_nulls_ok (n : Nat) (h : n ≤ 999) :
    decodeAMF0 (List.replicate n 5) = .ok (List.replicate n AMFValue.nullV) := by
  unfold decodeAMF0
  rw [List.length_replicate]
  have := decodeLoop_nulls_ok n (n + 1) [] (by omega) (by simp; omega)
  simpa using this

/-- Top-level decode of n null values, n at least 1000. -/
theorem decodeAMF0_nulls_limit (n : Nat) (h : 1000 ≤ n) :
    decodeAMF0 (List.replicate n 5) = .error .valueLimit := by
  unfold decodeAMF0
  rw [List.length_replicate]
  exact decodeLoop_nulls_limit n (n + 1) [] (by simp; omega) (by simp) (by simp; omega)

/-- Single-value decode of the generated object, n below 500 keys. -/
theorem decodeOne_obj_ok (n : Nat) (h : n ≤ 499) :
    decodeOne (objBytes n) = .ok (.obj (genF 0 n), []) := by
  unfold decodeOne
  rw [objBytes_length]
  show decodeValueF (5 * n + 4 + 1) (3 :: (pairBytes 0 n ++ [0, 0, 9])) = _
  show decodeObjFields (5 * n + 4) (pairBytes 0 n ++ [0, 0, 9]) [] = _
  have := objFields_gen_ok n 0 (5 * n + 4) [] (by omega) (by omega)
  simpa using this

/-- Single-value decode of the generated object, n at least 500 keys. -/
theorem decodeOne_obj_limit (n : Nat) (h : 500 ≤ n) :
    decodeOne (objBytes n) = .error .keyLimit := by
  unfold decodeOne
  rw [objBytes_length]
  show decodeValueF (5 * n + 4 + 1) (3 :: (pairBytes 0 n ++ [0, 0, 9])) = _
  show decodeObjFields (5 * n + 4) (pairBytes 0 n ++ [0, 0, 9]) [] = _
  have := objFields_gen_limit n 0 (5 * n + 4) [] (by omega) (by omega) (by omega)
  simpa using this

/-- readFullE only fails with the two io errors. -/
theorem readFullE_err (n : Nat) (input : List Nat) (e : DErr)
    (h : readFullE n input = .error e) : e = .eof ∨ e = .shortRead := by
  unfold readFullE at h
  split_ifs at h <;> simp_all

/-- The string-too-long error is unreachable: a u16 length field cannot
exceed 65535. -/
theorem decodeStringM_no_too_long :
    ∀ input : List Nat, (∀ b ∈ input, b < 256) →
      decodeStringM input ≠ .error .stringTooLong := by
  intro input hb
  match input with
  | [] => simp [decodeStringM, readFullE]
  | [b0] => simp [decodeStringM, readFullE]
  | b0 :: b1 :: t =>
    have h0 : b0 < 256 := hb b0 (by simp)
    have h1 : b1 < 256 := hb b1 (by simp)
    have h2 : readFullE 2 (b0 :: b1 :: t) = .ok ([b0, b1], t) := by
      simp [readFullE]
    have hv : beVal [b0, b1] = b0 * 256 + b1 := by simp [beVal]
    simp only [decodeStringM, h2, hv]
    split_ifs with hz hl
    · simp
    · omega
    · rcases hre : readFullE (b0 * 256 + b1) t with e | pair
      · rcases readFullE_err _ _ _ hre with rfl | rfl <;> simp
      · simp

/-- A string of exactly 65535 bytes decodes. -/
theorem decodeStringM_max (s rest : List Nat) (h : s.length = 65535) :
    decodeStringM (255 :: 255 :: (s ++ rest)) = .ok (s, rest) :=
  decodeStringM_pair 255 255 (s ++ rest) (by omega) (by omega) (by omega)
    s rest rfl (by omega)

/-- C4 counterexample: the decoder rejects inputs at the claimed
limits: a top-level decode of exactly 1000 values fails with the
value-limit error (the claim says up to 1000 succeed), and an object of
exactly 500 keys fails with the key-limit error (the claim says up to
500 decode). -/
theorem amf_limits_cex :
    decodeAMF0 (List.replicate 1000 5) = .error .valueLimit ∧
    decodeOne (objBytes 500) = .error .keyLimit :=
  ⟨decodeAMF0_nulls_limit 1000 (by omega), decodeOne_obj_limit 500 (by omega)⟩

/-- C4 (amended): the enforced limits are off by one from the claim on
the value and key sides, and the string error is dead code: a top-level
decode of up to 999 values succeeds while 1000 or more yields the
value-limit error; an object of up to 499 keys decodes while 500 or
more yields the key-limit error; every wire string carries a u16 length
of at most 65535 bytes and decodes (a 65535-byte string in
particular), so the dedicated string-too-long error is unreachable. -/
theorem amf_limits :
    (∀ n, n ≤ 999 → decodeAMF0 (List.replicate n 5) =
      .ok (List.replicate n AMFValue.nullV)) ∧
    (∀ n, 1000 ≤ n → decodeAMF0 (List.replicate n 5) = .error .valueLimit) ∧
    (∀ n, n ≤ 499 → decodeOne (objBytes n) = .ok (.obj (genF 0 n), [])) ∧
    (∀ n, 500 ≤ n → decodeOne (objBytes n) = .error .keyLimit) ∧
    (∀ input : List Nat, (∀ b ∈ input, b < 256) →
      decodeStringM input ≠ .error .stringTooLong) ∧
    (∀ s rest : List Nat, s.length = 65535 →
      decodeStringM (255 :: 255 :: (s ++ rest)) = .ok (s, rest)) :=
  ⟨decodeAMF0_nulls_ok, decodeAMF0_nulls_limit, decodeOne_obj_ok,
    decodeOne_obj_limit, decodeStringM_no_too_long, decodeStringM_max⟩

/-- Concrete run of the C4 theorem: three nulls decode, a 2-key object
decodes. -/
theorem amf_limits_witness :
    decodeAMF0 (List.replicate 3 5) = .ok (List.replicate 3 AMFValue.nullV) ∧
    decodeOne (objBytes 2) = .ok (.obj (genF 0 2), []) :=
  ⟨amf_limits.1 3 (by omega), amf_limits.2.2.1 2 (by omega)⟩

/-! ### C5: AMF0 round trip -/

theorem readFullE_exact (l rest : List Nat) :
    readFullE l.length (l ++ rest) = .ok (l, rest) := by
  simp [readFullE]

theorem beVal_be64 (v : Nat) (h : v < 2 ^ 64) : beVal (be64 v) = v := by
  simp only [beVal, be64, List.foldl]
  omega

/-- A length-prefixed encoded string parses back off the front. -/
theorem decodeStringM_encode (s : List Nat) (rest : List Nat)
    (h : s.length ≤ 65535) :
    decodeStringM ((be16 s.length ++ s) ++ rest) = .ok (s, rest) := by
  cases s with
  | nil => simpa [be16] using decodeStringM_empty rest
  | cons x xs =>
    have h2 : xs.length + 1 ≤ 65535 := by simpa using h
    have hm : (x :: xs).length / 256 % 256 = (x :: xs).length / 256 := by
      simp only [List.length_cons]
      omega
    have hshape : (be16 (x :: xs).length ++ (x :: xs)) ++ rest =
        (x :: xs).length / 256 :: (x :: xs).length % 256 ::
          ((x :: xs) ++ rest) := by
      simp only [be16, List.cons_append, List.nil_append, hm]
    rw [hshape]
    exact decodeStringM_pair _ _ _ (by simp only [List.length_cons]; omega)
      (by simp only [List.length_cons]; omega) (by omega) (x :: xs) rest rfl
      (by simp only [List.length_cons]; omega)

theorem encodeValue_head (v : AMFValue) :
    ∃ m body, encodeValue v = m :: body ∧ m ≠ 9 := by
  cases v with
  | num bits => exact ⟨0, _, rfl, by omega⟩
  | boolV b => exact ⟨1, _, rfl, by omega⟩
  | str s => exact ⟨2, _, rfl, by omega⟩
  | nullV => exact ⟨5, _, rfl, by omega⟩
  | obj fields => exact ⟨3, _, rfl, by omega⟩

theorem lexLt_irrefl : ∀ a : List Nat, lexLt a a = false := by
  intro a
  induction a with
  | nil => rfl
  | cons x xs ih => simp [lexLt, ih]

theorem lexLt_trans : ∀ a b c : List Nat,
    lexLt a b = true → lexLt b c = true → lexLt a c = true := by
  intro a
  induction a with
  | nil =>
    intro b c hab hbc
    cases b with
    | nil => exact absurd hab (by simp [lexLt])
    | cons y ys =>
      cases c with
      | nil => exact absurd hbc (by simp [lexLt])
      | cons z zs => simp [lexLt]
  | cons x xs ih =>
    intro b c hab hbc
    cases b with
    | nil => exact absurd hab (by simp [lexLt])
    | cons y ys =>
      cases c with
      | nil => exact absurd hbc (by simp [lexLt])
      | cons z zs =>
        simp only [lexLt] at hab hbc ⊢
        by_cases hxy : x < y
        · by_cases hyz : y < z
          · rw [if_pos (by omega)]
          · by_cases hzy : z < y
            · rw [if_neg hyz, if_pos hzy] at hbc
              exact absurd hbc (by simp)
            · rw [if_pos (by omega)]
        · by_cases hyx : y < x
          · rw [if_neg hxy, if_pos hyx] at hab
            exact absurd hab (by simp)
          · rw [if_neg hxy, if_neg hyx] at hab
            by_cases hyz : y < z
            · rw [if_pos (by omega)]
            · by_cases hzy : z < y
              · rw [if_neg hyz, if_pos hzy] at hbc
                exact absurd hbc (by simp)
              · rw [if_neg hyz, if_neg hzy] at hbc
                rw [if_neg (by omega), if_neg (by omega)]
                exact ih ys zs hab hbc

theorem lexLt_ne {a b : List Nat} (h : lexLt a b = true) : a ≠ b := by
  intro he
  subst he
  rw [lexLt_irrefl] at h
  exact absurd h (by simp)

theorem keysSorted_cons {p : List Nat × AMFValue}
    {l : List (List Nat × AMFValue)} (h : keysSorted (p :: l)) :
    keysSorted l := by
  cases l with
  | nil => trivial
  | cons q r => exact h.2

theorem keysSorted_head_lt {p : List Nat × AMFValue} :
    ∀ {l : List (List Nat × AMFValue)}, keysSorted (p :: l) →
      ∀ q ∈ l, lexLt p.1 q.1 = true := by
  intro l
  induction l with
  | nil => intro _ q hq; simp at hq
  | cons r t ih =>
    intro h q hq
    have hpr : lexLt p.1 r.1 = true := h.1
    rcases List.mem_cons.mp hq with rfl | hq2
    · exact hpr
    · have hrt : keysSorted (r :: t) := h.2
      have hpl : keysSorted (p :: t) := by
        cases t with
        | nil => trivial
        | cons u w =>
          exact ⟨lexLt_trans _ _ _ hpr hrt.1, keysSorted_cons hrt⟩
      exact ih hpl q hq2

theorem encodeFields_len_cons (k : List Nat) (v : AMFValue)
    (fs2 : List (List Nat × AMFValue)) :
    (encodeFields ((k, v) :: fs2)).length =
      2 + k.length + (encodeValue v).length + (encodeFields fs2).length := by
  simp [encodeFields, be16]
  omega

theorem decodeWithMarker_num (f : Nat) (bits : Nat) (rest : List Nat)
    (h : bits < 2 ^ 64) :
    decodeWithMarker (f + 1) 0 (be64 bits ++ rest) = .ok (.num bits, rest) := by
  have hr : readFullE 8 (be64 bits ++ rest) = .ok (be64 bits, rest) := by
    have h8 := readFullE_exact (be64 bits) rest
    rwa [show (be64 bits).length = 8 from rfl] at h8
  simp only [decodeWithMarker, hr]
  rw [beVal_be64 bits h]
  simp

theorem decodeWithMarker_bool (f : Nat) (b : Bool) (rest : List Nat) :
    decodeWithMarker (f + 1) 1 ((if b then 1 else 0) :: rest) =
      .ok (.boolV b, rest) := by
  have hr : readFullE 1 ((if b then (1 : Nat) else 0) :: rest) =
      .ok ([if b then 1 else 0], rest) := by
    simp [readFullE]
  simp only [decodeWithMarker, hr]
  cases b <;> simp

theorem decodeWithMarker_str (f : Nat) (s rest : List Nat)
    (h : s.length ≤ 65535) :
    decodeWithMarker (f + 1) 2 ((be16 s.length ++ s) ++ rest) =
      .ok (.str s, rest) := by
  have hs := decodeStringM_encode s rest h
  simp only [decodeWithMarker, hs]
  simp

/-- Round trip by strong induction on the value size, with the object
field loop handled by an inner list induction. -/
theorem decode_encode_main :
    ∀ N : Nat, ∀ v : AMFValue, sizeOf v ≤ N → ∀ (rest : List Nat) (fuel : Nat),
      SupportedV v → (encodeValue v).length + 1 ≤ fuel →
      decodeValueF fuel (encodeValue v ++ rest) = .ok (v, rest) := by
  intro N
  induction N with
  | zero =>
    intro v hv
    exact absurd hv (by cases v <;> simp)
  | succ N ih =>
    intro v hv rest fuel hs hf
    obtain ⟨f, rfl⟩ : ∃ f, fuel = f + 1 := ⟨fuel - 1, by omega⟩
    cases v with
    | num bits =>
      simp only [SupportedV] at hs
      simp only [encodeValue, List.cons_append, decodeValueF, readByteL]
      exact decodeWithMarker_num f bits rest hs
    | boolV b =>
      have hsh : encodeValue (.boolV b) ++ rest =
          1 :: ((if b then 1 else 0) :: rest) := by
        simp [encodeValue]
      rw [hsh]
      simp only [decodeValueF, readByteL]
      exact decodeWithMarker_bool f b rest
    | str s =>
      simp only [SupportedV] at hs
      simp only [encodeValue, List.cons_append, decodeValueF, readByteL]
      exact decodeWithMarker_str f s rest hs
    | nullV =>
      simp only [encodeValue, List.cons_append, decodeValueF, readByteL]
      exact decodeNull_marker f rest
    | obj fields =>
      simp only [SupportedV] at hs
      obtain ⟨hsort, hflen, hsf⟩ := hs
      have hsz : ∀ p ∈ fields, sizeOf p.2 ≤ N := by
        intro p hp
        have h1 := List.sizeOf_lt_of_mem hp
        have h2 : sizeOf p.2 < sizeOf p := by
          obtain ⟨a, b⟩ := p
          simp
        have h3 : sizeOf (AMFValue.obj fields) = 1 + sizeOf fields := by simp
        omega
      have aux : ∀ fs : List (List Nat × AMFValue),
          (∀ p ∈ fs, sizeOf p.2 ≤ N) → SupportedFields fs → keysSorted fs →
          ∀ (acc : List (List Nat × AMFValue)) (rest2 : List Nat) (f2 : Nat),
            (encodeFields fs).length + 4 ≤ f2 →
            (∀ p ∈ fs, p.1 ∉ acc.map Prod.fst) →
            acc.length + fs.length ≤ 499 →
            decodeObjFields f2 (encodeFields fs ++ (0 :: 0 :: 9 :: rest2)) acc =
              .ok (.obj (acc ++ fs), rest2) := by
        intro fs
        induction fs with
        | nil =>
          intro _ _ _ acc rest2 f2 hf2 _ hacc
          obtain ⟨g, rfl⟩ : ∃ g, f2 = g + 1 := ⟨f2 - 1, by omega⟩
          have hlim : ¬ 500 ≤ acc.length := by omega
          simp only [encodeFields, List.nil_append, decodeObjFields, hlim,
            if_false, decodeStringM_empty, readByteL]
          simp
        | cons p fs2 ihf =>
          obtain ⟨k, v⟩ := p
          intro hszs hsfs hsorts acc rest2 f2 hf2 hfresh hacc
          obtain ⟨g, rfl⟩ : ∃ g, f2 = g + 1 := ⟨f2 - 1, by omega⟩
          have hklen : k.length ≤ 65535 := hsfs.1
          have hlim : ¬ 500 ≤ acc.length := by
            simp only [List.length_cons] at hacc
            omega
          have hkey := decodeStringM_encode k
            (encodeValue v ++ (encodeFields fs2 ++ (0 :: 0 :: 9 :: rest2))) hklen
          obtain ⟨m, body, hev, hm9⟩ := encodeValue_head v
          have hlc := encodeFields_len_cons k v fs2
          have hval := ih v (hszs (k, v) (by simp))
            (encodeFields fs2 ++ (0 :: 0 :: 9 :: rest2)) g hsfs.2.1
            (by omega)
          rw [hev] at hval
          simp only [decodeValueF, readByteL, List.cons_append] at hval
          have hshape : encodeFields ((k, v) :: fs2) ++ (0 :: 0 :: 9 :: rest2) =
              (be16 k.length ++ k) ++
                (encodeValue v ++ (encodeFields fs2 ++ (0 :: 0 :: 9 :: rest2))) := by
            simp [encodeFields, List.append_assoc]
          rw [hshape]
          simp only [decodeObjFields, hlim, if_false, hkey]
          rw [hev]
          simp only [List.cons_append, readByteL]
          rw [if_neg hm9, hval]
          show decodeObjFields g (encodeFields fs2 ++ (0 :: 0 :: 9 :: rest2))
              (mapInsert acc k v) = _
          have hkfresh : k ∉ acc.map Prod.fst := hfresh (k, v) (by simp)
          rw [mapInsert_fresh acc k v hkfresh]
          rw [ihf (fun p hp => hszs p (by simp [hp])) hsfs.2.2
            (keysSorted_cons hsorts) (acc ++ [(k, v)]) rest2 g (by omega)
            (fun p hp => by
              simp only [List.map_append, List.mem_append, List.map_cons,
                List.map_nil, List.mem_singleton]
              push_neg
              refine ⟨hfresh p (by simp [hp]), ?_⟩
              intro he
              exact (lexLt_ne (keysSorted_head_lt hsorts p hp)) he.symm)
            (by simp only [List.length_append, List.length_cons,
                  List.length_nil] at hacc ⊢; omega)]
          simp
      have hffuel : (encodeFields fields).length + 4 ≤ f := by
        have : (encodeValue (AMFValue.obj fields)).length =
            (encodeFields fields).length + 4 := by
          simp [encodeValue]
        omega
      have hshape2 : encodeValue (AMFValue.obj fields) ++ rest =
          3 :: (encodeFields fields ++ (0 :: 0 :: 9 :: rest)) := by
        simp [encodeValue, List.append_assoc]
      rw [hshape2]
      simp only [decodeValueF, readByteL]
      show decodeObjFields f (encodeFields fields ++ (0 :: 0 :: 9 :: rest)) [] = _
      have := aux fields hsz hsf hsort [] rest f hffuel (by simp) (by simpa using hflen)
      simpa using this

/-- Round trip of a single supported value (decode after encode, with
the decoder's canonical fuel). -/
theorem decode_encode_val (v : AMFValue) (rest : List Nat) (fuel : Nat)
    (hs : SupportedV v) (hf : (encodeValue v).length + 1 ≤ fuel) :
    decodeValueF fuel (encodeValue v ++ rest) = .ok (v, rest) :=
  decode_encode_main (sizeOf v) v (le_refl _) rest fuel hs hf

/-- C5 counterexample helper: a string whose length overflows the u16
length field decodes back as the empty string. -/
theorem str_overflow (fuel : Nat) (s : List Nat) (h : s.length = 65536) :
    decodeValueF (fuel + 1) (encodeValue (.str s)) = .ok (.str [], s) := by
  have hb : be16 s.length = [0, 0] := by rw [h]; rfl
  show decodeValueF (fuel + 1) (2 :: (be16 s.length ++ s)) = _
  rw [hb]
  simp only [List.cons_append, List.nil_append, decodeValueF, readByteL]
  have hstr : decodeStringM (0 :: 0 :: s) = .ok ([], s) := decodeStringM_empty s
  simp only [decodeWithMarker, hstr]
  simp

theorem claimSubsetV_str (s : List Nat) : ClaimSubsetV (.str s) := by
  simp only [ClaimSubsetV]

theorem encodeStr_length (s : List Nat) :
    (encodeValue (.str s)).length = s.length + 3 := by
  simp only [encodeValue, List.length_cons, List.length_append, be16,
    List.length_nil]
  omega

/-- C5 counterexample: a 65536-byte string lies in the subset as the
claim words it, but its length silently truncates through the u16
length field, so decoding the encoding returns the empty string, not
the original value: decode(encode(v)) differs from v. -/
theorem amf_roundtrip_cex :
    ClaimSubsetV (.str (List.replicate 65536 97)) ∧
    decodeOne (encodeValue (.str (List.replicate 65536 97))) =
      .ok (.str [], List.replicate 65536 97) ∧
    AMFValue.str [] ≠ .str (List.replicate 65536 97) := by
  refine ⟨claimSubsetV_str (List.replicate 65536 97), ?_, ?_⟩
  · have hlen : (encodeValue (.str (List.replicate 65536 97))).length = 65539 := by
      rw [encodeStr_length, List.length_replicate]
    unfold decodeOne
    rw [hlen]
    exact str_overflow 65539 (List.replicate 65536 97)
      (List.length_replicate 65536 97)
  · intro h
    have h2 : ([] : List Nat) = List.replicate 65536 97 := by injection h
    have h3 := congrArg List.length h2
    rw [List.length_replicate] at h3
    simp only [List.length_nil] at h3
    exact absurd h3 (by norm_num)

/-- C5 (amended): for every value of the supported subset within the
codec's hard limits (strings and keys of at most 65535 bytes, objects
of at most 499 keys, objects in the canonical sorted-key form the Go
map encoder emits), decoding the encoding returns the value exactly
and consumes the whole encoding. -/
theorem amf_roundtrip (v : AMFValue) (hs : SupportedV v) :
    decodeOne (encodeValue v) = .ok (v, []) := by
  unfold decodeOne
  have h := decode_encode_val v [] ((encodeValue v).length + 1) hs (le_refl _)
  simpa using h

/-- Concrete run of the C5 theorem on a two-field object. -/
theorem amf_roundtrip_witness :
    decodeOne (encodeValue (.obj [([97], .num 5), ([98], .boolV true)])) =
      .ok (.obj [([97], .num 5), ([98], .boolV true)], []) :=
  amf_roundtrip (.obj [([97], .num 5), ([98], .boolV true)])
    (by simp [SupportedV, SupportedFields, keysSorted, lexLt])

theorem basic_parse (c : WireChunk) (Z : List Nat)
    (h2 : 2 ≤ c.csid) (h65599 : c.csid ≤ 65599) (hf : c.fmt ≤ 3) :
    (serBasic c ++ Z) ≠ [] ∧
    ∀ h1 r0, serBasic c ++ Z = h1 :: r0 →
      h1 / 64 % 4 = c.fmt ∧ readBasicCs (h1 % 64) r0 = some (c.csid, Z) := by
  by_cases hlt : c.csid < 64
  · refine ⟨by simp [serBasic, hlt], ?_⟩
    intro h1 r0 he
    simp only [serBasic, if_pos hlt, List.cons_append, List.nil_append,
      List.cons.injEq] at he
    obtain ⟨he1, he2⟩ := he
    subst he1; subst he2
    constructor
    · have hd : (c.fmt * 64 + c.csid) / 64 = c.fmt := by omega
      rw [hd]; omega
    · have hm : (c.fmt * 64 + c.csid) % 64 = c.csid := by omega
      rw [hm]
      simp only [readBasicCs]
      rw [if_neg (by omega), if_neg (by omega)]
  · by_cases hlt2 : c.csid < 320
    · refine ⟨by simp [serBasic, hlt, hlt2], ?_⟩
      intro h1 r0 he
      simp only [serBasic, if_neg hlt, if_pos hlt2, List.cons_append,
        List.nil_append, List.cons.injEq] at he
      obtain ⟨he1, he2⟩ := he
      subst he1; subst he2
      constructor
      · have hd : c.fmt * 64 / 64 = c.fmt := by omega
        rw [hd]; omega
      · have hm : c.fmt * 64 % 64 = 0 := by omega
        rw [hm]
        simp only [readBasicCs, if_true, Option.some.injEq, Prod.mk.injEq,
          and_true]
        omega
    · refine ⟨by simp [serBasic, hlt, hlt2], ?_⟩
      intro h1 r0 he
      simp only [serBasic, if_neg hlt, if_neg hlt2, List.cons_append,
        List.nil_append, List.cons.injEq] at he
      obtain ⟨he1, he2⟩ := he
      subst he1; subst he2
      constructor
      · have hd : (c.fmt * 64 + 1) / 64 = c.fmt := by
          rw [Nat.add_comm, Nat.add_mul_div_right 1 c.fmt
            (by norm_num : (0 : Nat) < 64)]
          simp
        rw [hd]; omega
      · have hm : (c.fmt * 64 + 1) % 64 = 1 := by omega
        rw [hm]
        simp only [readBasicCs, if_true]
        rw [if_neg (by norm_num : ¬ ((1 : Nat) = 0))]
        simp only [Option.some.injEq, Prod.mk.injEq, and_true]
        omega

theorem readExt32_be32 (t : Nat) (Z : List Nat) (ht : t < 2 ^ 32) :
    readExt32 (be32 t ++ Z) = some (t, Z) := by
  simp only [be32, List.cons_append, List.nil_append, readExt32,
    Option.some.injEq, Prod.mk.injEq, and_true]
  omega

theorem readFmt0Hdr_eq (t l ty s : Nat) (Z : List Nat)
    (ht : t < 2 ^ 24) (hl : l < 2 ^ 24) (hs : s < 2 ^ 32) :
    readFmt0Hdr (be24 t ++ be24 l ++ ty :: (le32 s ++ Z)) =
      some (t, l, ty, s, Z) := by
  simp only [be24, le32, List.cons_append, List.nil_append, readFmt0Hdr,
    Option.some.injEq, Prod.mk.injEq, and_true]
  exact ⟨by omega, by omega, trivial, by omega⟩

theorem readFmt1Hdr_eq (t l ty : Nat) (Z : List Nat)
    (ht : t < 2 ^ 24) (hl : l < 2 ^ 24) :
    readFmt1Hdr (be24 t ++ be24 l ++ ty :: Z) = some (t, l, ty, Z) := by
  simp only [be24, List.cons_append, List.nil_append, readFmt1Hdr,
    Option.some.injEq, Prod.mk.injEq, and_true]
  exact ⟨by omega, by omega⟩

theorem readFmt2Hdr_eq (t : Nat) (Z : List Nat) (ht : t < 2 ^ 24) :
    readFmt2Hdr (be24 t ++ Z) = some (t, Z) := by
  simp only [be24, List.cons_append, List.nil_append, readFmt2Hdr,
    Option.some.injEq, Prod.mk.injEq, and_true]
  omega

theorem headerStage_fmt0 (cs : ChunkStream) (st : StreamState) (c : WireChunk)
    (Z : List Nat) (hf : c.fmt = 0) (hts : c.ts < 2 ^ 32) (hlen : c.len < 2 ^ 24)
    (hty : c.typeId < 256) (hsid : c.streamId < 2 ^ 32) :
    headerStage 0 st { st.lastHeader with fmt := 0, csid := c.csid }
        (serHdr c ++ (serExt cs c ++ Z)) =
      some (specHeader st c, Z) := by
  have hspec : specHeader st c =
      { fmt := 0, csid := c.csid, timestamp := c.ts, length := c.len,
        typeId := c.typeId, streamId := c.streamId, timeDelta := 0 } := by
    simp [specHeader, hf]
  have hr : serHdr c ++ (serExt cs c ++ Z) =
      be24 (min c.ts 16777215) ++ be24 c.len ++ c.typeId ::
        (le32 c.streamId ++ (serExt cs c ++ Z)) := by
    simp [serHdr, hf, List.append_assoc]
  rw [hr]
  simp only [headerStage, parseMsgHeader, if_pos rfl]
  rw [readFmt0Hdr_eq (min c.ts 16777215) c.len c.typeId c.streamId
    (serExt cs c ++ Z) (by omega) hlen hsid]
  simp only [if_true]
  simp only [applyExtTs]
  rw [if_neg (show ¬ ((0 : Nat) = 1 ∨ (0 : Nat) = 2) by norm_num)]
  by_cases hx : 16777215 ≤ c.ts
  · have hmin : c.ts ⊓ 16777215 = 16777215 := by omega
    have hext : serExt cs c = be32 c.ts := by simp [serExt, hf, hx]
    rw [hmin, if_pos (le_refl 16777215), hext, readExt32_be32 c.ts Z hts]
    simp only [if_true, hspec, Option.some.injEq, Prod.mk.injEq,
      ChunkHeader.mk.injEq, and_true]
  · have hmin : c.ts ⊓ 16777215 = c.ts := by omega
    have hext : serExt cs c = ([] : List Nat) := by simp [serExt, hf]; omega
    rw [hmin, if_neg hx, hext]
    simp only [List.nil_append, hspec, Option.some.injEq, Prod.mk.injEq,
      ChunkHeader.mk.injEq, and_true]

theorem headerStage_fmt1 (cs : ChunkStream) (st : StreamState) (c : WireChunk)
    (Z : List Nat) (hf : c.fmt = 1) (hts : c.ts < 2 ^ 32)
    (hlen : c.len < 2 ^ 24) :
    headerStage 1 st { st.lastHeader with fmt := 1, csid := c.csid }
        (serHdr c ++ (serExt cs c ++ Z)) =
      some (specHeader st c, Z) := by
  have hspec : specHeader st c =
      { fmt := 1, csid := c.csid,
        timestamp := (st.lastHeader.timestamp + c.ts) % 2 ^ 32,
        length := c.len, typeId := c.typeId,
        streamId := st.lastHeader.streamId, timeDelta := c.ts } := by
    simp [specHeader, hf]
  have hr : serHdr c ++ (serExt cs c ++ Z) =
      be24 (min c.ts 16777215) ++ be24 c.len ++ c.typeId ::
        (serExt cs c ++ Z) := by
    simp [serHdr, hf, List.append_assoc]
  rw [hr]
  simp only [headerStage, parseMsgHeader]
  rw [if_neg (by norm_num : ¬ ((1 : Nat) = 0))]
  simp only [if_true]
  rw [readFmt1Hdr_eq (min c.ts 16777215) c.len c.typeId
    (serExt cs c ++ Z) (by omega) hlen]
  simp only [applyExtTs, if_true]
  rw [if_pos (Or.inl trivial : True ∨ (1 : Nat) = 2)]
  by_cases hx : 16777215 ≤ c.ts
  · have hmin : c.ts ⊓ 16777215 = 16777215 := by omega
    have hext : serExt cs c = be32 c.ts := by simp [serExt, hf, hx]
    rw [hmin, if_pos (le_refl 16777215), hext, readExt32_be32 c.ts Z hts]
    simp [hspec]
  · have hmin : c.ts ⊓ 16777215 = c.ts := by omega
    have hext : serExt cs c = ([] : List Nat) := by simp [serExt, hf]; omega
    rw [hmin, if_neg hx, hext]
    simp only [List.nil_append, hspec, Option.some.injEq, Prod.mk.injEq,
      ChunkHeader.mk.injEq, and_true]

theorem headerStage_fmt2 (cs : ChunkStream) (st : StreamState) (c : WireChunk)
    (Z : List Nat) (hf : c.fmt = 2) (hts : c.ts < 2 ^ 32) :
    headerStage 2 st { st.lastHeader with fmt := 2, csid := c.csid }
        (serHdr c ++ (serExt cs c ++ Z)) =
      some (specHeader st c, Z) := by
  have hspec : specHeader st c =
      { fmt := 2, csid := c.csid,
        timestamp := (st.lastHeader.timestamp + c.ts) % 2 ^ 32,
        length := st.lastHeader.length, typeId := st.lastHeader.typeId,
        streamId := st.lastHeader.streamId, timeDelta := c.ts } := by
    simp [specHeader, hf]
  have hr : serHdr c ++ (serExt cs c ++ Z) =
      be24 (min c.ts 16777215) ++ (serExt cs c ++ Z) := by
    simp [serHdr, hf, List.append_assoc]
  rw [hr]
  simp only [headerStage, parseMsgHeader]
  rw [if_neg (by norm_num : ¬ ((2 : Nat) = 0)),
    if_neg (by norm_num : ¬ ((2 : Nat) = 1))]
  simp only [if_true]
  rw [readFmt2Hdr_eq (min c.ts 16777215) (serExt cs c ++ Z) (by omega)]
  simp only [applyExtTs, if_true]
  rw [if_pos (Or.inr trivial : (2 : Nat) = 1 ∨ True)]
  by_cases hx : 16777215 ≤ c.ts
  · have hmin : c.ts ⊓ 16777215 = 16777215 := by omega
    have hext : serExt cs c = be32 c.ts := by simp [serExt, hf, hx]
    rw [hmin, if_pos (le_refl 16777215), hext, readExt32_be32 c.ts Z hts]
    simp [hspec]
  · have hmin : c.ts ⊓ 16777215 = c.ts := by omega
    have hext : serExt cs c = ([] : List Nat) := by simp [serExt, hf]; omega
    rw [hmin, if_neg hx, hext]
    simp only [List.nil_append, hspec, Option.some.injEq, Prod.mk.injEq,
      ChunkHeader.mk.injEq, and_true]

theorem headerStage_fmt3 (cs : ChunkStream) (st : StreamState) (c : WireChunk)
    (Z : List Nat) (hf : c.fmt = 3) (hext3 : c.ext3 < 2 ^ 32)
    (hst : (lookupCS cs.streams c.csid).getD StreamState.fresh = st) :
    headerStage 3 st { st.lastHeader with fmt := 3, csid := c.csid }
        (serHdr c ++ (serExt cs c ++ Z)) =
      some (specHeader st c, Z) := by
  have hser : serHdr c = ([] : List Nat) := by simp [serHdr, hf]
  have hextd : serExt cs c =
      (if 16777215 ≤ fmt3TsField cs c then be32 c.ext3 else []) := by
    simp [serExt, hf]
  rw [hser, List.nil_append]
  rcases hasm : st.assembling with _ | m
  · have htf : fmt3TsField cs c =
        (st.lastHeader.timestamp + st.lastHeader.timeDelta) % 2 ^ 32 := by
      simp [fmt3TsField, hst, hasm]
    by_cases hx : 16777215 ≤
        (st.lastHeader.timestamp + st.lastHeader.timeDelta) % 2 ^ 32
    · have hsx : serExt cs c = be32 c.ext3 := by
        rw [hextd, htf, if_pos hx]
      have hspec : specHeader st c =
          { fmt := 3, csid := c.csid,
            timestamp := (st.lastHeader.timestamp + c.ext3) % 2 ^ 32,
            length := st.lastHeader.length, typeId := st.lastHeader.typeId,
            streamId := st.lastHeader.streamId, timeDelta := c.ext3 } := by
        simp [specHeader, hf, hasm, hx]
        intro h
        omega
      rw [hsx]
      simp only [headerStage, parseMsgHeader]
      rw [if_neg (by norm_num : ¬ ((3 : Nat) = 0)),
        if_neg (by norm_num : ¬ ((3 : Nat) = 1)),
        if_neg (by norm_num : ¬ ((3 : Nat) = 2)), hasm]
      simp only [applyExtTs]
      rw [if_neg (by norm_num : ¬ ((3 : Nat) = 1 ∨ (3 : Nat) = 2))]
      rw [if_pos hx, readExt32_be32 c.ext3 Z hext3]
      simp [hspec]
    · have hsx : serExt cs c = ([] : List Nat) := by
        rw [hextd, htf, if_neg hx]
      have hspec : specHeader st c =
          { fmt := 3, csid := c.csid,
            timestamp := (st.lastHeader.timestamp + st.lastHeader.timeDelta) %
              2 ^ 32,
            length := st.lastHeader.length, typeId := st.lastHeader.typeId,
            streamId := st.lastHeader.streamId,
            timeDelta := st.lastHeader.timeDelta } := by
        simp [specHeader, hf, hasm, hx]
        intro h
        omega
      rw [hsx, List.nil_append]
      simp only [headerStage, parseMsgHeader]
      rw [if_neg (by norm_num : ¬ ((3 : Nat) = 0)),
        if_neg (by norm_num : ¬ ((3 : Nat) = 1)),
        if_neg (by norm_num : ¬ ((3 : Nat) = 2)), hasm]
      simp only [applyExtTs]
      rw [if_neg (by norm_num : ¬ ((3 : Nat) = 1 ∨ (3 : Nat) = 2))]
      rw [if_neg hx]
      simp [hspec]
  · have htf : fmt3TsField cs c = m.header.timestamp := by
      simp [fmt3TsField, hst, hasm]
    by_cases hx : 16777215 ≤ m.header.timestamp
    · have hsx : serExt cs c = be32 c.ext3 := by
        rw [hextd, htf, if_pos hx]
      have hspec : specHeader st c =
          { m.header with timeDelta := c.ext3,
                          timestamp :=
              (st.lastHeader.timestamp + c.ext3) % 2 ^ 32 } := by
        simp [specHeader, hf, hasm, hx]
      rw [hsx]
      simp only [headerStage, parseMsgHeader]
      rw [if_neg (by norm_num : ¬ ((3 : Nat) = 0)),
        if_neg (by norm_num : ¬ ((3 : Nat) = 1)),
        if_neg (by norm_num : ¬ ((3 : Nat) = 2)), hasm]
      simp only [applyExtTs]
      rw [if_neg (by norm_num : ¬ ((3 : Nat) = 1 ∨ (3 : Nat) = 2))]
      rw [if_pos hx, readExt32_be32 c.ext3 Z hext3]
      simp [hspec]
    · have hsx : serExt cs c = ([] : List Nat) := by
        rw [hextd, htf, if_neg hx]
      have hspec : specHeader st c = m.header := by
        simp [specHeader, hf, hasm, hx]
      rw [hsx, List.nil_append]
      simp only [headerStage, parseMsgHeader]
      rw [if_neg (by norm_num : ¬ ((3 : Nat) = 0)),
        if_neg (by norm_num : ¬ ((3 : Nat) = 1)),
        if_neg (by norm_num : ¬ ((3 : Nat) = 2)), hasm]
      simp only [applyExtTs]
      rw [if_neg (by norm_num : ¬ ((3 : Nat) = 1 ∨ (3 : Nat) = 2))]
      rw [if_neg hx]
      simp [hspec]

theorem specHeader_length (st : StreamState) (c : WireChunk)
    (hasm : st.assembling = none) :
    (specHeader st c).length = specNewLen st c := by
  by_cases h0 : c.fmt = 0
  · simp [specHeader, specNewLen, h0]
  · by_cases h1 : c.fmt = 1
    · simp [specHeader, specNewLen, h0, h1]
    · by_cases h2 : c.fmt = 2
      · simp [specHeader, specNewLen, h0, h1, h2]
      · simp only [specHeader, specNewLen, h0, h1, h2, if_false, hasm]
        split <;> simp

theorem payloadStage_spec (cs : ChunkStream) (c : WireChunk) (rest : List Nat)
    (st : StreamState)
    (hst : (lookupCS cs.streams c.csid).getD StreamState.fresh = st)
    (hpl : c.payload.length =
      min ((st.assembling.getD
          { header := specHeader st c, payload := [] }).header.length -
        (st.assembling.getD
          { header := specHeader st c, payload := [] }).payload.length)
        cs.rxChunkSize) :
    payloadStage cs c.csid st (specHeader st c) (c.payload ++ rest) =
      some ((specStep cs c).1, (specStep cs c).2, rest) := by
  simp only [payloadStage, specStep, hst]
  rw [← hpl, readN_exact]
  split
  · next x heq => exact absurd heq (by simp)
  · next x piece r4 heq =>
      simp only [Option.some.injEq, Prod.mk.injEq] at heq
      obtain ⟨h1, h2⟩ := heq
      subst h1
      subst h2
      split_ifs with hc <;> rfl

theorem readChunk_serialize (cs : ChunkStream) (c : WireChunk)
    (rest : List Nat) (hv : ValidChunk cs c) :
    readChunk cs (serializeChunk cs c ++ rest) =
      some ((specStep cs c).1, (specStep cs c).2, rest) := by
  obtain ⟨h2, h65599, hfle, hts, hlen, htyb, hsid, hext3, hp⟩ := hv
  have hassoc : serializeChunk cs c ++ rest =
      serBasic c ++ (serHdr c ++ (serExt cs c ++ (c.payload ++ rest))) := by
    simp [serializeChunk, List.append_assoc]
  obtain ⟨hne, hbp⟩ := basic_parse c
    (serHdr c ++ (serExt cs c ++ (c.payload ++ rest))) h2 h65599 hfle
  rw [hassoc]
  rcases hsb : serBasic c ++ (serHdr c ++ (serExt cs c ++ (c.payload ++ rest)))
    with _ | ⟨h1, r0⟩
  · exact absurd hsb hne
  · obtain ⟨hfmt, hcs⟩ := hbp h1 r0 hsb
    simp only [readChunk]
    rw [hfmt, hcs]
    split
    · next x heq => exact absurd heq (by simp)
    · next x csId r1 heq =>
        simp only [Option.some.injEq, Prod.mk.injEq] at heq
        obtain ⟨hq1, hq2⟩ := heq
        subst hq1
        subst hq2
        set stX := (lookupCS cs.streams c.csid).getD StreamState.fresh
          with hstX
        rcases hasm : stX.assembling with _ | m
        · rw [hasm] at hp
          have hp2 : c.payload.length =
              specNewLen stX c ⊓ cs.rxChunkSize := hp
          have hpl : c.payload.length =
              min ((stX.assembling.getD
                  { header := specHeader stX c, payload := [] }).header.length -
                (stX.assembling.getD
                  { header := specHeader stX c,
                    payload := [] }).payload.length)
                cs.rxChunkSize := by
            rw [hasm]
            simp only [Option.getD_none]
            rw [specHeader_length _ _ hasm]
            simpa using hp2
          have h03 : c.fmt = 0 ∨ c.fmt = 1 ∨ c.fmt = 2 ∨ c.fmt = 3 := by
            omega
          rcases h03 with hf | hf | hf | hf
          · rw [hf, headerStage_fmt0 cs stX c (c.payload ++ rest) hf hts hlen
              htyb hsid]
            exact payloadStage_spec cs c rest stX hstX.symm hpl
          · rw [hf, headerStage_fmt1 cs stX c (c.payload ++ rest) hf hts hlen]
            exact payloadStage_spec cs c rest stX hstX.symm hpl
          · rw [hf, headerStage_fmt2 cs stX c (c.payload ++ rest) hf hts]
            exact payloadStage_spec cs c rest stX hstX.symm hpl
          · rw [hf, headerStage_fmt3 cs stX c (c.payload ++ rest) hf hext3
              hstX.symm]
            exact payloadStage_spec cs c rest stX hstX.symm hpl
        · rw [hasm] at hp
          have hp2 : c.fmt = 3 ∧ c.payload.length =
              (m.header.length - m.payload.length) ⊓ cs.rxChunkSize := hp
          obtain ⟨hf, hplen⟩ := hp2
          have hpl : c.payload.length =
              min ((stX.assembling.getD
                  { header := specHeader stX c, payload := [] }).header.length -
                (stX.assembling.getD
                  { header := specHeader stX c,
                    payload := [] }).payload.length)
                cs.rxChunkSize := by
            rw [hasm]
            simpa using hplen
          rw [hf, headerStage_fmt3 cs stX c (c.payload ++ rest) hf hext3
            hstX.symm]
          exact payloadStage_spec cs c rest stX hstX.symm hpl

theorem groupOk_ne_nil (cs : ChunkStream) (g : List WireChunk)
    (hg : GroupOk cs g) : g ≠ [] := by
  intro h
  subst h
  exact hg

theorem serializeChunk_ne_nil (cs : ChunkStream) (c : WireChunk) :
    serializeChunk cs c ≠ [] := by
  by_cases h1 : c.csid < 64 <;> by_cases h2 : c.csid < 320 <;>
    simp [serializeChunk, serBasic, h1, h2]

theorem serializeChunks_ge : ∀ (chunks : List WireChunk) (cs : ChunkStream),
    chunks.length ≤ (serializeChunks cs chunks).length
  | [], _ => by simp [serializeChunks]
  | c :: rest, cs => by
    have ih := serializeChunks_ge rest (specNext cs c)
    have hne := serializeChunk_ne_nil cs c
    have h1 : 1 ≤ (serializeChunk cs c).length := by
      rcases hsc : serializeChunk cs c with _ | ⟨b, bs⟩
      · exact absurd hsc hne
      · simp
    simp only [serializeChunks, List.length_append, List.length_cons]
    omega

theorem specRun_cons (cs : ChunkStream) (c : WireChunk)
    (rest : List WireChunk) :
    specRun cs (c :: rest) =
      ((match (specStep cs c).1 with
        | some m => m :: (specRun (specNext cs c) rest).1
        | none => (specRun (specNext cs c) rest).1),
       (specRun (specNext cs c) rest).2) := by
  rcases hss : specStep cs c with ⟨o, cs2⟩
  rcases o with _ | m <;> simp [specRun, hss, specNext]

theorem specRun_append : ∀ (xs ys : List WireChunk) (cs : ChunkStream),
    specRun cs (xs ++ ys) =
      ((specRun cs xs).1 ++ (specRun (specRun cs xs).2 ys).1,
       (specRun (specRun cs xs).2 ys).2)
  | [], ys, cs => by simp [specRun]
  | x :: xs, ys, cs => by
    have ih := specRun_append xs ys (specNext cs x)
    rw [List.cons_append, specRun_cons, specRun_cons, ih]
    rcases (specStep cs x).1 with _ | m <;> simp

theorem serializeChunks_append : ∀ (xs ys : List WireChunk)
    (cs : ChunkStream),
    serializeChunks cs (xs ++ ys) =
      serializeChunks cs xs ++ serializeChunks (specRun cs xs).2 ys
  | [], ys, cs => by simp [serializeChunks, specRun]
  | x :: xs, ys, cs => by
    have ih := serializeChunks_append xs ys (specNext cs x)
    rw [List.cons_append]
    simp only [serializeChunks, specRun_cons]
    rw [ih, List.append_assoc]

theorem readMessageAux_group : ∀ (chunks : List WireChunk)
    (cs : ChunkStream) (rest : List Nat) (fuel : Nat),
    GroupOk cs chunks → chunks.length ≤ fuel →
    ∃ m cs2, specRun cs chunks = ([m], cs2) ∧
      readMessageAux fuel cs (serializeChunks cs chunks ++ rest) =
        some (m, cs2, rest)
  | [], cs, rest, fuel, hg, _ => hg.elim
  | [c], cs, rest, fuel, hg, hfuel => by
    obtain ⟨hv, hsome⟩ := hg
    rcases hss : specStep cs c with ⟨o, cs2⟩
    rw [hss] at hsome
    rcases o with _ | m
    · exact absurd hsome (by simp)
    · refine ⟨m, applySetChunkSize cs2 m, ?_, ?_⟩
      · simp [specRun, hss]
      · obtain ⟨f, rfl⟩ : ∃ f, fuel = f + 1 := by
          rcases fuel with _ | f
          · simp at hfuel
          · exact ⟨f, rfl⟩
        have hbytes : serializeChunks cs [c] ++ rest =
            serializeChunk cs c ++ rest := by
          simp [serializeChunks]
        rw [hbytes]
        simp only [readMessageAux]
        rw [readChunk_serialize cs c rest hv, hss]
  | c :: c2 :: tl, cs, rest, fuel, hg, hfuel => by
    obtain ⟨hv, hnone, hg2⟩ := hg
    obtain ⟨f, rfl⟩ : ∃ f, fuel = f + 1 := by
      rcases fuel with _ | f
      · simp at hfuel
      · exact ⟨f, rfl⟩
    have hnext : specNext cs c = (specStep cs c).2 := by
      rcases hss : specStep cs c with ⟨o, cs3⟩
      rw [hss] at hnone
      simp only at hnone
      subst hnone
      simp [specNext, hss]
    obtain ⟨m, cs2, hrun, hread⟩ := readMessageAux_group (c2 :: tl)
      (specNext cs c) rest f hg2 (by simpa using Nat.le_of_succ_le_succ hfuel)
    refine ⟨m, cs2, ?_, ?_⟩
    · rw [specRun_cons, hnone, hrun]
    · have hbytes : serializeChunks cs (c :: c2 :: tl) ++ rest =
          serializeChunk cs c ++
            (serializeChunks (specNext cs c) (c2 :: tl) ++ rest) := by
        simp [serializeChunks, List.append_assoc]
      rw [hbytes]
      simp only [readMessageAux]
      rw [readChunk_serialize cs c
        (serializeChunks (specNext cs c) (c2 :: tl) ++ rest) hv, hnone]
      rw [← hnext]
      exact hread

theorem clean_decomp : ∀ (chunks : List WireChunk) (cs : ChunkStream),
    CleanSeq cs chunks → chunks ≠ [] →
    ∃ g r2, chunks = g ++ r2 ∧ GroupOk cs g ∧
      CleanSeq (specRun cs g).2 r2
  | [], _, _, hne => absurd rfl hne
  | c :: rest, cs, hc, _ => by
    obtain ⟨hv, hlast, hc2⟩ := hc
    rcases hss : (specStep cs c).1 with _ | m
    · have hrne : rest ≠ [] := by
        intro h
        subst h
        have hsome := hlast rfl
        rw [hss] at hsome
        simp at hsome
      obtain ⟨g2, r2, hsplit, hg2, hc3⟩ :=
        clean_decomp rest (specNext cs c) hc2 hrne
      refine ⟨c :: g2, r2, by rw [hsplit, List.cons_append], ?_, ?_⟩
      · rcases g2 with _ | ⟨x, xs⟩
        · exact (groupOk_ne_nil _ _ hg2 rfl).elim
        · exact ⟨hv, hss, hg2⟩
      · have h2 : (specRun cs (c :: g2)).2 = (specRun (specNext cs c) g2).2 := by
          rw [specRun_cons]
        rw [h2]
        exact hc3
    · refine ⟨[c], rest, rfl, ⟨hv, by rw [hss]; simp⟩, ?_⟩
      have h2 : (specRun cs [c]).2 = specNext cs c := by
        rcases hstep : specStep cs c with ⟨o, cs3⟩
        rw [hstep] at hss
        simp only at hss
        subst hss
        simp [specRun, hstep, specNext]
      rw [h2]
      exact hc2

theorem readAllMsgsAux_clean : ∀ (fuel : Nat) (chunks : List WireChunk)
    (cs : ChunkStream) (acc : List RMessage),
    CleanSeq cs chunks → chunks.length < fuel →
    readAllMsgsAux fuel cs (serializeChunks cs chunks) acc =
      some (acc ++ (specRun cs chunks).1, (specRun cs chunks).2)
  | 0, chunks, _, _, _, hfuel => by omega
  | fuel + 1, [], cs, acc, _, _ => by
    simp [serializeChunks, readAllMsgsAux, specRun]
  | fuel + 1, c :: rest, cs, acc, hc, hfuel => by
    obtain ⟨g, r2, hsplit, hg, hc2⟩ :=
      clean_decomp (c :: rest) cs hc (by simp)
    rw [hsplit, serializeChunks_append]
    obtain ⟨m, cs2, hrun, hread⟩ := readMessageAux_group g cs
      (serializeChunks (specRun cs g).2 r2)
      ((serializeChunks cs g ++ serializeChunks (specRun cs g).2 r2).length + 1)
      hg (by
        have := serializeChunks_ge g cs
        simp only [List.length_append]
        omega)
    have hcs2 : (specRun cs g).2 = cs2 := by rw [hrun]
    have hinput : serializeChunks cs g ++ serializeChunks (specRun cs g).2 r2 ≠
        ([] : List Nat) := by
      rcases g with _ | ⟨c1, g1⟩
      · exact (groupOk_ne_nil _ _ hg rfl).elim
      · have hne := serializeChunk_ne_nil cs c1
        rcases hsc : serializeChunk cs c1 with _ | ⟨b, bs⟩
        · exact absurd hsc hne
        · simp [serializeChunks, hsc]
    rcases hin : serializeChunks cs g ++ serializeChunks (specRun cs g).2 r2
      with _ | ⟨b, bs⟩
    · exact absurd hin hinput
    · simp only [readAllMsgsAux]
      rw [← hin]
      have hrm : readMessage cs
          (serializeChunks cs g ++ serializeChunks (specRun cs g).2 r2) =
          some (m, cs2, serializeChunks (specRun cs g).2 r2) := by
        rw [readMessage, hin, ← hin]
        exact hread
      rw [hrm]
      have hlen : r2.length < fuel := by
        have hgnil := groupOk_ne_nil _ _ hg
        have : g.length + r2.length = rest.length + 1 := by
          have := congrArg List.length hsplit
          simp only [List.length_append, List.length_cons] at this
          omega
        have hg1 : 1 ≤ g.length := by
          rcases g with _ | ⟨c1, g1⟩
          · exact (hgnil rfl).elim
          · simp
        simp only [List.length_cons] at hfuel
        omega
      have ih := readAllMsgsAux_clean fuel r2 cs2 (acc ++ [m]) (hcs2 ▸ hc2)
        hlen
      rw [hcs2] at hread ⊢
      show readAllMsgsAux fuel cs2 (serializeChunks cs2 r2) (acc ++ [m]) =
        some (acc ++ (specRun cs (g ++ r2)).1, (specRun cs (g ++ r2)).2)
      rw [ih, specRun_append, hrun]
      simp

/-- C2: over every well-formed chunk encoding (interleaved CSIDs, fmt 0-3,
extended timestamps, chunk-size splitting), draining the stream with
repeated ReadMessage calls yields exactly the messages the RTMP 1.0
reconstruction rules prescribe, in order. -/
theorem chunk_reader_reconstructs (cs : ChunkStream)
    (chunks : List WireChunk) (h : CleanSeq cs chunks) :
    readAllMsgs cs (serializeChunks cs chunks) = some (specRun cs chunks) := by
  rw [readAllMsgs]
  rw [readAllMsgsAux_clean ((serializeChunks cs chunks).length + 1) chunks
    cs [] h (by have := serializeChunks_ge chunks cs; omega)]
  simp

theorem chunk_reader_reconstructs_witness :
    CleanSeq newChunkStream [chunkC2] ∧
    readAllMsgs newChunkStream (serializeChunks newChunkStream [chunkC2]) =
      some (specRun newChunkStream [chunkC2]) := by
  have h : CleanSeq newChunkStream [chunkC2] := by
    refine ⟨⟨by decide, by decide, by decide, by decide, by decide,
      by decide, by decide, by decide, rfl⟩, ?_, trivial⟩
    intro h2
    decide
  exact ⟨h, chunk_reader_reconstructs newChunkStream [chunkC2] h⟩

/-! ### C1: consumption lemmas (every reader stage leaves a suffix) -/

theorem readN_suffix (n : Nat) (input piece rest : List Nat)
    (h : readN n input = some (piece, rest)) : input = piece ++ rest := by
  simp only [readN] at h
  split_ifs at h
  simp only [Option.some.injEq, Prod.mk.injEq] at h
  obtain ⟨h1, h2⟩ := h
  rw [← h1, ← h2, List.take_append_drop]

theorem readBasicCs_suffix (cs0 : Nat) (r0 : List Nat) (csId : Nat)
    (r1 : List Nat) (h : readBasicCs cs0 r0 = some (csId, r1)) :
    ∃ pre, r0 = pre ++ r1 := by
  simp only [readBasicCs] at h
  split_ifs at h with h0 h1
  · split at h
    · next b rr =>
        simp only [Option.some.injEq, Prod.mk.injEq] at h
        exact ⟨[b], by rw [h.2]; rfl⟩
    · exact absurd h (by simp)
  · split at h
    · next b0 b1 rr =>
        simp only [Option.some.injEq, Prod.mk.injEq] at h
        exact ⟨[b0, b1], by rw [h.2]; rfl⟩
    · exact absurd h (by simp)
  · simp only [Option.some.injEq, Prod.mk.injEq] at h
    exact ⟨[], by rw [h.2]; rfl⟩

theorem readFmt0Hdr_suffix (r : List Nat) (a b c d : Nat) (r1 : List Nat)
    (h : readFmt0Hdr r = some (a, b, c, d, r1)) : ∃ pre, r = pre ++ r1 := by
  unfold readFmt0Hdr at h
  split at h
  · next t2 t1 t0 l2 l1 l0 ty s0 s1 s2 s3 rr =>
      simp only [Option.some.injEq, Prod.mk.injEq] at h
      exact ⟨[t2, t1, t0, l2, l1, l0, ty, s0, s1, s2, s3],
        by rw [h.2.2.2.2]; rfl⟩
  · exact absurd h (by simp)

theorem readFmt1Hdr_suffix (r : List Nat) (a b c : Nat) (r1 : List Nat)
    (h : readFmt1Hdr r = some (a, b, c, r1)) : ∃ pre, r = pre ++ r1 := by
  unfold readFmt1Hdr at h
  split at h
  · next t2 t1 t0 l2 l1 l0 ty rr =>
      simp only [Option.some.injEq, Prod.mk.injEq] at h
      exact ⟨[t2, t1, t0, l2, l1, l0, ty], by rw [h.2.2.2]; rfl⟩
  · exact absurd h (by simp)

theorem readFmt2Hdr_suffix (r : List Nat) (a : Nat) (r1 : List Nat)
    (h : readFmt2Hdr r = some (a, r1)) : ∃ pre, r = pre ++ r1 := by
  unfold readFmt2Hdr at h
  split at h
  · next t2 t1 t0 rr =>
      simp only [Option.some.injEq, Prod.mk.injEq] at h
      exact ⟨[t2, t1, t0], by rw [h.2]; rfl⟩
  · exact absurd h (by simp)

theorem readExt32_suffix (r : List Nat) (a : Nat) (r1 : List Nat)
    (h : readExt32 r = some (a, r1)) : ∃ pre, r = pre ++ r1 := by
  unfold readExt32 at h
  split at h
  · next b3 b2 b1 b0 rr =>
      simp only [Option.some.injEq, Prod.mk.injEq] at h
      exact ⟨[b3, b2, b1, b0], by rw [h.2]; rfl⟩
  · exact absurd h (by simp)

theorem parseMsgHeader_suffix (fmtId : Nat) (st : StreamState)
    (base hdr : ChunkHeader) (r r1 : List Nat)
    (h : parseMsgHeader fmtId st base r = some (hdr, r1)) :
    ∃ pre, r = pre ++ r1 := by
  unfold parseMsgHeader at h
  split_ifs at h
  · split at h
    · exact absurd h (by simp)
    · next ts len ty sid rr heq =>
        simp only [Option.some.injEq, Prod.mk.injEq] at h
        obtain ⟨pre, hp⟩ := readFmt0Hdr_suffix r ts len ty sid rr heq
        exact ⟨pre, by rw [hp, h.2]⟩
  · split at h
    · exact absurd h (by simp)
    · next d len ty rr heq =>
        simp only [Option.some.injEq, Prod.mk.injEq] at h
        obtain ⟨pre, hp⟩ := readFmt1Hdr_suffix r d len ty rr heq
        exact ⟨pre, by rw [hp, h.2]⟩
  · split at h
    · exact absurd h (by simp)
    · next d rr heq =>
        simp only [Option.some.injEq, Prod.mk.injEq] at h
        obtain ⟨pre, hp⟩ := readFmt2Hdr_suffix r d rr heq
        exact ⟨pre, by rw [hp, h.2]⟩
  · split at h <;>
    · simp only [Option.some.injEq, Prod.mk.injEq] at h
      exact ⟨[], by rw [h.2]; rfl⟩

theorem applyExtTs_suffix (fmtId : Nat) (st : StreamState)
    (header hdr : ChunkHeader) (r r1 : List Nat)
    (h : applyExtTs fmtId st header r = some (hdr, r1)) :
    ∃ pre, r = pre ++ r1 := by
  simp only [applyExtTs] at h
  rcases hext : readExt32 r with _ | ⟨ext, rr⟩ <;> rw [hext] at h
  · split_ifs at h <;>
      first
        | exact Option.noConfusion h
        | (simp only [Option.some.injEq, Prod.mk.injEq] at h
           exact ⟨[], by rw [h.2]; rfl⟩)
  · obtain ⟨pre, hp⟩ := readExt32_suffix r ext rr hext
    split_ifs at h <;>
      simp only [Option.some.injEq, Prod.mk.injEq] at h <;>
      first
        | exact ⟨pre, by rw [hp, h.2]⟩
        | exact ⟨[], by rw [h.2]; rfl⟩

theorem headerStage_suffix (fmtId : Nat) (st : StreamState)
    (base hdr : ChunkHeader) (r r1 : List Nat)
    (h : headerStage fmtId st base r = some (hdr, r1)) :
    ∃ pre, r = pre ++ r1 := by
  unfold headerStage at h
  split at h
  · exact absurd h (by simp)
  · next hdr2 r2 heq =>
      obtain ⟨p1, hp1⟩ := parseMsgHeader_suffix fmtId st base hdr2 r r2 heq
      obtain ⟨p2, hp2⟩ := applyExtTs_suffix fmtId st hdr2 hdr r2 r1 h
      exact ⟨p1 ++ p2, by rw [hp1, hp2, List.append_assoc]⟩

theorem payloadStage_suffix (cs : ChunkStream) (csId : Nat)
    (st : StreamState) (header : ChunkHeader) (r3 : List Nat)
    (o : Option RMessage) (cs2 : ChunkStream) (r4 : List Nat)
    (h : payloadStage cs csId st header r3 = some (o, cs2, r4)) :
    ∃ pre, r3 = pre ++ r4 := by
  simp only [payloadStage] at h
  split at h
  · exact absurd h (by simp)
  · next piece rr heq =>
      have hs := readN_suffix _ r3 piece rr heq
      split_ifs at h <;>
      · simp only [Option.some.injEq, Prod.mk.injEq] at h
        exact ⟨piece, by rw [hs, h.2.2]⟩

theorem readChunk_suffix (cs : ChunkStream) (input : List Nat)
    (o : Option RMessage) (cs2 : ChunkStream) (rest : List Nat)
    (h : readChunk cs input = some (o, cs2, rest)) :
    ∃ pre, input = pre ++ rest := by
  simp only [readChunk] at h
  split at h
  · exact absurd h (by simp)
  · next h1 r0 =>
      split at h
      · exact absurd h (by simp)
      · next csId r1 heq1 =>
          split at h
          · exact absurd h (by simp)
          · next hdr r3 heq2 =>
              obtain ⟨p1, hp1⟩ := readBasicCs_suffix _ r0 csId r1 heq1
              obtain ⟨p2, hp2⟩ := headerStage_suffix _ _ _ hdr r1 r3 heq2
              obtain ⟨p3, hp3⟩ := payloadStage_suffix cs csId _ hdr r3
                o cs2 rest h
              refine ⟨h1 :: (p1 ++ (p2 ++ p3)), ?_⟩
              rw [List.cons_append, hp1, hp2, hp3]
              simp [List.append_assoc]

theorem readMessageAux_suffix : ∀ (fuel : Nat) (cs : ChunkStream)
    (input : List Nat) (m : RMessage) (cs2 : ChunkStream) (rest : List Nat),
    readMessageAux fuel cs input = some (m, cs2, rest) →
    ∃ pre, input = pre ++ rest
  | 0, _, _, _, _, _, h => absurd h (by simp [readMessageAux])
  | fuel + 1, cs, input, m, cs2, rest, h => by
    unfold readMessageAux at h
    split at h
    · exact absurd h (by simp)
    · next m2 cs3 r2 heq =>
        simp only [Option.some.injEq, Prod.mk.injEq] at h
        obtain ⟨pre, hp⟩ := readChunk_suffix cs input _ cs3 r2 heq
        exact ⟨pre, by rw [hp, h.2.2]⟩
    · next cs3 r2 heq =>
        obtain ⟨p1, hp1⟩ := readChunk_suffix cs input _ cs3 r2 heq
        obtain ⟨p2, hp2⟩ := readMessageAux_suffix fuel cs3 r2 m cs2 rest h
        exact ⟨p1 ++ p2, by rw [hp1, hp2, List.append_assoc]⟩

theorem readMessage_suffix (cs : ChunkStream) (input : List Nat)
    (m : RMessage) (cs2 : ChunkStream) (rest : List Nat)
    (h : readMessage cs input = some (m, cs2, rest)) :
    ∃ pre, input = pre ++ rest :=
  readMessageAux_suffix (input.length + 1) cs input m cs2 rest h

/-- C1: for every successful transparent-relay session, the ordered
upstream writes are: the client-handshake bytes first (nothing earlier),
then as first application data the downstream connect bytes, then the
remaining downstream bytes; connect bytes and remainder concatenate
back to exactly the downstream's post-handshake stream. -/
theorem upstream_first_bytes (ds upInput : List Nat) (nowDs nowUp : Nat)
    (randDs randUp : List Nat) (auth : Option (List Nat → Bool))
    (r : HandleRun)
    (h : handleModel ds upInput nowDs nowUp randDs randUp auth = some r) :
    upstreamWrites r.trace =
      [(Phase.hs, r.upHsWrites), (Phase.app, r.connectBytes),
       (Phase.app, r.dsRest)] ∧
    r.connectBytes ++ r.dsRest = r.dsAfterHs := by
  simp only [handleModel] at h
  split at h
  · exact Option.noConfusion h
  · next dsW ds1 hhs =>
      split at h
      · exact Option.noConfusion h
      · next msg csA ds2 hrm =>
          split at h
          · exact Option.noConfusion h
          · next vals hdec =>
              split at h
              · next name tl =>
                  split_ifs at h
                  · split at h
                    · exact Option.noConfusion h
                    · next upW upRest hup =>
                        simp only [Option.some.injEq] at h
                        subst h
                        obtain ⟨pre, hpre⟩ :=
                          readMessage_suffix newChunkStream ds1 msg csA ds2 hrm
                        constructor
                        · simp [upstreamWrites]
                        · simp only
                          rw [hpre]
                          have hl : (pre ++ ds2).length - ds2.length =
                              pre.length := by simp
                          rw [hl, List.take_left]
              · exact Option.noConfusion h

/-- Concrete run of the C1 theorem on the zero-filled handshake session
with a 22-byte connect chunk. -/
theorem hs0_eval :
    serverHandshakeSimple dsInput0 0 hsRand = some (dsW0, chunkBytes0) := by
  have hrep : ∀ X : List Nat, readN 1536 (List.replicate 1536 0 ++ X) =
      some (List.replicate 1536 0, X) := by
    intro X
    have h := readN_exact (List.replicate 1536 0) X
    rwa [List.length_replicate] at h
  simp only [dsInput0, serverHandshakeSimple, hrep]
  rw [if_pos (show List.take 4 (List.drop 4 (List.replicate 1536 (0 : Nat))) =
    [0, 0, 0, 0] by simp [List.drop_replicate, List.take_replicate])]
  simp only [simpleServerResponse, hrep]
  rfl

theorem up0_eval :
    simpleClientHandshake upInput0 0 hsRand = some (upW0, []) := by
  have hrep : ∀ X : List Nat, readN 1536 (List.replicate 1536 0 ++ X) =
      some (List.replicate 1536 0, X) := by
    intro X
    have h := readN_exact (List.replicate 1536 0) X
    rwa [List.length_replicate] at h
  have hrep1 : readN 1536 (List.replicate 1536 (0 : Nat)) =
      some (List.replicate 1536 0, []) := by
    have h := hrep []
    rwa [List.append_nil] at h
  simp only [upInput0, simpleClientHandshake, hrep, hrep1]
  rfl

theorem rm0_eval : readMessage newChunkStream chunkBytes0 =
    some (msg0, cs1, []) := by rfl

theorem dc0_eval : decodeConnectCmd msg0 = some [AMFValue.str strConnect] := by
  have hsc : strConnect.length = 7 := by simp [strConnect]
  have hS : decodeWithMarker 11 2 (0 :: 7 :: strConnect) =
      .ok (.str strConnect, []) := by
    have h := decodeWithMarker_str 10 strConnect [] (by simp [strConnect])
    simpa [be16, strConnect] using h
  simp only [decodeConnectCmd, msg0, hdr0, decodeAMF0, decodeLoop,
    decodeValueF, readByteL, List.cons_append, List.nil_append,
    List.length_cons, List.length_nil, hsc, hS, Except.toOption, if_true]
  rfl

theorem handle0_eval :
    handleModel dsInput0 upInput0 0 0 hsRand hsRand none = some run0 := by
  simp only [handleModel, hs0_eval, rm0_eval, dc0_eval, up0_eval,
    List.length_nil, Nat.sub_zero, List.take_length, if_true, run0]

/-- Concrete run of the C1 theorem on the zero-filled handshake session
with a 22-byte connect chunk. -/
theorem upstream_first_bytes_witness :
    handleModel dsInput0 upInput0 0 0 hsRand hsRand none = some run0 ∧
    upstreamWrites run0.trace =
      [(Phase.hs, run0.upHsWrites),
       (Phase.app, run0.connectBytes),
       (Phase.app, run0.dsRest)] ∧
    run0.connectBytes ++ run0.dsRest = run0.dsAfterHs := by
  obtain ⟨hA, hB⟩ := upstream_first_bytes dsInput0 upInput0 0 0 hsRand hsRand
    none run0 handle0_eval
  exact ⟨handle0_eval, hA, hB⟩

end RTMPRelay
